import Mathlib

/-!
# Verification of the cutout detector (src/scripts/detect_cutout.py)

The script performs a two-phase connected-component analysis on the
transparency mask of an image:

1. a multi-source breadth-first flood fill seeded from the transparent
   border pixels ("exterior" transparency, lines 16-40 of the source), and
2. a row-major scan that labels each remaining ("interior") transparent
   region with a fresh positive label, computing its area and bounding box
   (lines 42-68), followed by
3. a report that sorts the components by area descending and prints the
   first five (lines 70-73).

This file embeds the script shallowly.  Pixels are pairs `(x, y) : Int`
(the source stores `(x, y)` tuples in its queues and indexes arrays as
`[y, x]`); the dense `uint8`/`int32` arrays become total functions
`Cell → Nat`; the `deque` becomes a `List` used FIFO (pop at the head,
append at the tail).  The `while queue:` loops become fuel-based recursion;
the fuel supplied by the top-level definitions is proved large enough that
the queue actually empties, so the embedding computes the same fixpoint as
the unbounded loop.  The component loop's running `area` counter and
`min/max` bounding-box updates happen once per dequeued pixel, so the
embedding records the dequeue order in a `trace` list and recovers
`area` as its length and the bounding box as a fold over it, in dequeue
order with the seed pixel as the initial value, exactly as in the source.
-/

namespace Cutout

/-- A pixel, written `(x, y)` as in the source's queue entries. -/
abbrev Cell : Type := Int × Int

/-- A dense grid of naturals (`visited` is `uint8` 0/1, `labeled` is
`int32` with nonnegative labels in the source). -/
abbrev Grid : Type := Cell → Nat

/-- In-bounds test `0 <= x < w and 0 <= y < h` (source line 38/65). -/
abbrev inBP (w h : Int) (c : Cell) : Prop :=
  0 ≤ c.1 ∧ c.1 < w ∧ 0 ≤ c.2 ∧ c.2 < h

/-- A border pixel: in bounds and on the top row, bottom row, left column
or right column. -/
abbrev borderP (w h : Int) (c : Cell) : Prop :=
  inBP w h c ∧ (c.1 = 0 ∨ c.1 = w - 1 ∨ c.2 = 0 ∨ c.2 = h - 1)

/-- Pointwise update of a grid. -/
def updG (g : Grid) (c : Cell) (v : Nat) : Grid :=
  fun d => if d = c then v else g d

/-- The four axis-aligned neighbor offsets, in the order of source
lines 36 and 63: `[(-1, 0), (1, 0), (0, -1), (0, 1)]`. -/
def offsets : List Cell := [(-1, 0), (1, 0), (0, -1), (0, 1)]

/-- 4-adjacency: `b` is obtained from `a` by one of the four offsets. -/
def Adj (a b : Cell) : Prop :=
  (b.1 = a.1 - 1 ∧ b.2 = a.2) ∨ (b.1 = a.1 + 1 ∧ b.2 = a.2) ∨
    (b.1 = a.1 ∧ b.2 = a.2 - 1) ∨ (b.1 = a.1 ∧ b.2 = a.2 + 1)

/-- `alpha < threshold` (source line 14), as a boolean mask. -/
def transparentMask (alpha : Cell → Nat) (threshold : Nat) : Cell → Bool :=
  fun c => decide (alpha c < threshold)

/-- One neighbor inspection of the BFS inner loop (source lines 36-40 and
63-67): if the neighbor is in bounds, unmarked and admissible (`ok`), mark
it with `lab` and append it to the queue. -/
def pushNeighbor (w h : Int) (ok : Cell → Bool) (lab : Nat) (c : Cell)
    (st : Grid × List Cell) (d : Cell) : Grid × List Cell :=
  if 0 ≤ c.1 + d.1 ∧ c.1 + d.1 < w ∧ 0 ≤ c.2 + d.2 ∧ c.2 + d.2 < h ∧
      st.1 (c.1 + d.1, c.2 + d.2) = 0 ∧ ok (c.1 + d.1, c.2 + d.2) = true then
    (updG st.1 (c.1 + d.1, c.2 + d.2) lab, st.2 ++ [(c.1 + d.1, c.2 + d.2)])
  else st

/-- Result of a breadth-first fill: final mark grid, remaining queue
(empty whenever the fuel sufficed) and the dequeued pixels in order. -/
structure BfsOut where
  grid : Grid
  queue : List Cell
  trace : List Cell

/-- The BFS loop (`while queue:` at source lines 34-40 and 56-67), with
explicit fuel.  Each iteration pops the head of the FIFO queue, records it
in the trace, and inspects its four neighbors in source order. -/
def bfsAux (w h : Int) (ok : Cell → Bool) (lab : Nat) :
    Nat → Grid → List Cell → BfsOut
  | 0, g, q => ⟨g, q, []⟩
  | _ + 1, g, [] => ⟨g, [], []⟩
  | fuel + 1, g, c :: q =>
    let st := offsets.foldl (pushNeighbor w h ok lab c) (g, q)
    let r := bfsAux w h ok lab fuel st.1 st.2
    ⟨r.grid, r.queue, c :: r.trace⟩

/-- One border-seeding test (source lines 20-22, 23-25, 27-29, 30-32):
if the candidate pixel is transparent and not yet visited, mark it visited
and append it to the queue. -/
def seedCell (t : Cell → Bool) (st : Grid × List Cell) (c : Cell) :
    Grid × List Cell :=
  if t c = true ∧ st.1 c = 0 then (updG st.1 c 1, st.2 ++ [c]) else st

/-- The border seeding candidates in source order: for `x in range(w)` the
pixels `(x, 0)` and `(x, h-1)`, then for `y in range(1, h-1)` the pixels
`(0, y)` and `(w-1, y)` (source lines 19-32). -/
def borderCells (w h : Int) : List Cell :=
  ((List.range w.toNat).flatMap fun x => [((x : Int), 0), ((x : Int), h - 1)]) ++
    ((List.range (h - 2).toNat).flatMap fun i =>
      [((0 : Int), (i : Int) + 1), (w - 1, (i : Int) + 1)])

/-- The seeding loops: fold the guarded seeding over the candidate list,
starting from an all-zero `visited` grid and an empty queue. -/
def seedBorder (w h : Int) (t : Cell → Bool) : Grid × List Cell :=
  (borderCells w h).foldl (seedCell t) (fun _ => 0, [])

/-- Fuel that provably outlasts the border BFS: each dequeue either ends
the loop or strictly decreases `5 * (unmarked cells) + (queue length)`. -/
def borderFuel (w h : Int) : Nat :=
  5 * (w.toNat * h.toNat) + 2 * (w.toNat + h.toNat) + 1

/-- The border flood fill (source lines 16-40) run with a given fuel. -/
def borderRun (w h : Int) (t : Cell → Bool) (fuel : Nat) : BfsOut :=
  bfsAux w h t 1 fuel (seedBorder w h t).1 (seedBorder w h t).2

/-- The `visited` grid after the border flood fill completes. -/
def visitedGrid (w h : Int) (t : Cell → Bool) : Grid :=
  (borderRun w h t (borderFuel w h)).grid

/-- `interior = transparent & (visited == 0)` (source line 42). -/
def interiorMask (w h : Int) (t : Cell → Bool) : Cell → Bool :=
  fun c => t c && decide (visitedGrid w h t c = 0)

/-- One component record, `(area, min_x, min_y, max_x - min_x + 1,
max_y - min_y + 1)` at source line 68. -/
structure Component where
  area : Nat
  min_x : Int
  min_y : Int
  width : Int
  height : Int
deriving DecidableEq, Repr

/-- One bounding-box update (source lines 59-62), applied per dequeued
pixel. -/
def bboxStep (b : Int × Int × Int × Int) (c : Cell) : Int × Int × Int × Int :=
  (min b.1 c.1, min b.2.1 c.2, max b.2.2.1 c.1, max b.2.2.2 c.2)

/-- Build the component record of one fill from its seed and its dequeue
trace: `area` counts dequeues (line 58) and the bounding box starts at the
seed (line 54) and folds the per-dequeue updates in dequeue order. -/
def mkComponent (c0 : Cell) (tr : List Cell) : Component :=
  let b := tr.foldl bboxStep (c0.1, c0.2, c0.1, c0.2)
  ⟨tr.length, b.1, b.2.1, b.2.2.1 - b.1 + 1, b.2.2.2 - b.2.1 + 1⟩

/-- State of the labeling scan (source lines 44-46): the `labeled` grid,
the last label handed out, and the component list so far. -/
structure ScanState where
  labeled : Grid
  label : Nat
  components : List Component

/-- Fuel that provably outlasts each per-component BFS. -/
def compFuel (w h : Int) : Nat := 5 * (w.toNat * h.toNat) + 1

/-- One scan position (source lines 50-68): if the pixel is interior and
unlabeled, take the next label, mark the seed, run the component BFS, and
append the finished component record. -/
def scanStep (w h : Int) (intr : Cell → Bool) (fuel : Nat)
    (st : ScanState) (c : Cell) : ScanState :=
  if intr c = true ∧ st.labeled c = 0 then
    let r := bfsAux w h intr (st.label + 1) fuel (updG st.labeled c (st.label + 1)) [c]
    ⟨r.grid, st.label + 1, st.components ++ [mkComponent c r.trace]⟩
  else st

/-- The row-major scan order, `for y in range(h): for x in range(w)`
(source lines 48-49). -/
def cellsRowMajor (w h : Int) : List Cell :=
  (List.range h.toNat).flatMap fun y =>
    (List.range w.toNat).map fun (x : Nat) => ((x : Int), (y : Int))

/-- The full labeling scan run with a given per-component fuel. -/
def scanRun (w h : Int) (t : Cell → Bool) (fuel : Nat) : ScanState :=
  (cellsRowMajor w h).foldl (scanStep w h (interiorMask w h t) fuel)
    ⟨fun _ => 0, 0, []⟩

/-- The two-phase analysis of a transparency mask: border flood fill, then
interior labeling (source lines 16-68). -/
def analysis (w h : Int) (t : Cell → Bool) : ScanState :=
  scanRun w h t (compFuel w h)

/-- The whole pipeline from the alpha grid (source lines 11-68). -/
def detect (w h : Int) (alpha : Cell → Nat) (threshold : Nat) : ScanState :=
  analysis w h (transparentMask alpha threshold)

/-- `components.sort(key=lambda c: c[0], reverse=True)` (source line 70):
CPython's sort is stable, and with `reverse=True` equal-area components
keep their original relative order; `mergeSort` with the descending-area
comparison has exactly this behavior. -/
def sortComponents (cs : List Component) : List Component :=
  cs.mergeSort fun a b => decide (b.area ≤ a.area)

/-- One printed line of the report (source line 73): 1-based rank, area,
bounding-box origin and size. -/
structure ReportEntry where
  rank : Nat
  area : Nat
  x : Int
  y : Int
  rw : Int
  rh : Int
deriving DecidableEq, Repr

/-- The report loop `for i, ... in enumerate(components[:5])` (source
lines 72-73). -/
def reportEntries (cs : List Component) (limit : Nat) : List ReportEntry :=
  ((sortComponents cs).take limit).enum.map fun p =>
    ⟨p.1 + 1, p.2.area, p.2.min_x, p.2.min_y, p.2.width, p.2.height⟩

/-- NumPy basic indexing of an axis of length `n`: index `i` is accepted
when `0 <= i < n`, a negative `i` with `-n <= i` wraps to `i + n`, and
anything else raises `IndexError`. -/
def npIndex (n i : Int) : Option Int :=
  if 0 ≤ i ∧ i < n then some i
  else if -n ≤ i ∧ i < 0 then some (i + n)
  else none

/-- A bounds-checked read `transparent[y, x]` of the `(h, w)`-shaped mask,
`none` modeling an `IndexError`. -/
def readMask (w h : Int) (t : Cell → Bool) (y x : Int) : Option Bool := do
  let y' ← npIndex h y
  let x' ← npIndex w x
  pure (t (x', y'))

/-- The border-seeding test with the mask read bounds-checked, as NumPy
executes it: `transparent[y, x]` is read first and raises on an
out-of-bounds index (the `visited` reads use the same indices, so they
cannot fail separately). -/
def seedCellChecked (w h : Int) (t : Cell → Bool) (st : Grid × List Cell)
    (c : Cell) : Option (Grid × List Cell) := do
  let b ← readMask w h t c.2 c.1
  pure (if b = true ∧ st.1 c = 0 then (updG st.1 c 1, st.2 ++ [c]) else st)

/-- The seeding loops of source lines 19-32 with bounds-checked reads. -/
def seedBorderChecked (w h : Int) (t : Cell → Bool) :
    Option (Grid × List Cell) :=
  (borderCells w h).foldlM (seedCellChecked w h t) (fun _ => 0, [])

/-- Reachability through admissible in-bounds pixels by 4-connected
steps; both endpoints are admissible and in bounds. -/
inductive Reach (w h : Int) (ok : Cell → Bool) : Cell → Cell → Prop
  | refl (c : Cell) (hb : inBP w h c) (ho : ok c = true) : Reach w h ok c c
  | step (a b c : Cell) (r : Reach w h ok a b) (hadj : Adj b c)
      (hb : inBP w h c) (ho : ok c = true) : Reach w h ok a c

/-- The in-bounds pixels as a finite set. -/
def inBFin (w h : Int) : Finset Cell :=
  Finset.Icc (0 : Int) (w - 1) ×ˢ Finset.Icc (0 : Int) (h - 1)

/-- The number of unmarked in-bounds pixels, the BFS termination
measure's main component. -/
def unmarked (w h : Int) (g : Grid) : Nat :=
  ((inBFin w h).filter fun c => g c = 0).card

/-- The border fill with an arbitrary seed-candidate list, to express
independence from the seeding order. -/
def seedRun (w h : Int) (t : Cell → Bool) (L : List Cell) (fuel : Nat) :
    BfsOut :=
  bfsAux w h t 1 fuel (L.foldl (seedCell t) (fun _ => 0, [])).1
    (L.foldl (seedCell t) (fun _ => 0, [])).2

/-- What one finished component record says about the label grid: its
area counts the cells carrying its label, and its bounding box is the
tight rectangle around them. -/
def CompSpec (w h : Int) (g : Grid) (lab : Nat) (comp : Component) : Prop :=
  comp.area = ((inBFin w h).filter fun c => g c = lab).card ∧
  (∀ c, g c = lab →
    comp.min_x ≤ c.1 ∧ c.1 ≤ comp.min_x + comp.width - 1 ∧
    comp.min_y ≤ c.2 ∧ c.2 ≤ comp.min_y + comp.height - 1) ∧
  (∃ c, g c = lab ∧ c.1 = comp.min_x) ∧
  (∃ c, g c = lab ∧ c.1 = comp.min_x + comp.width - 1) ∧
  (∃ c, g c = lab ∧ c.2 = comp.min_y) ∧
  (∃ c, g c = lab ∧ c.2 = comp.min_y + comp.height - 1)

/-- The invariant of the row-major labeling scan after processing the
positions in `P`: the labeled pixels are those connected to an interior
pixel already scanned, labels are in `1..label`, two labeled pixels share
a label exactly when they are connected, and every finished record
satisfies `CompSpec` for its label. -/
structure ScanInv (w h : Int) (intr : Cell → Bool) (P : List Cell)
    (st : ScanState) : Prop where
  mark_iff : ∀ c, st.labeled c ≠ 0 ↔ ∃ p ∈ P, Reach w h intr p c
  val_le : ∀ c, st.labeled c ≠ 0 → st.labeled c ≤ st.label
  same_iff : ∀ c d, st.labeled c ≠ 0 → st.labeled d ≠ 0 →
    (st.labeled c = st.labeled d ↔ Reach w h intr c d)
  len_eq : st.components.length = st.label
  comp_spec : ∀ i (hi : i < st.components.length),
    CompSpec w h st.labeled (i + 1) (st.components.get ⟨i, hi⟩)

/-! ## Basic facts about grids, adjacency and reachability -/

theorem updG_eval (g : Grid) (c : Cell) (v : Nat) (d : Cell) :
    updG g c v d = if d = c then v else g d := rfl

theorem mem_inBFin (w h : Int) (c : Cell) : c ∈ inBFin w h ↔ inBP w h c := by
  simp only [inBFin, Finset.mem_product, Finset.mem_Icc, inBP]
  omega

theorem adj_symm {a b : Cell} (h : Adj a b) : Adj b a := by
  rcases h with ⟨h1, h2⟩ | ⟨h1, h2⟩ | ⟨h1, h2⟩ | ⟨h1, h2⟩ <;>
    simp only [Adj] <;> omega

theorem adj_of_offset {c : Cell} {d : Cell} (hd : d ∈ offsets) :
    Adj c (c.1 + d.1, c.2 + d.2) := by
  simp only [offsets, List.mem_cons, List.mem_singleton] at hd
  rcases hd with rfl | rfl | rfl | rfl | h
  · exact Or.inl ⟨by omega, by omega⟩
  · exact Or.inr (Or.inl ⟨by omega, by omega⟩)
  · exact Or.inr (Or.inr (Or.inl ⟨by omega, by omega⟩))
  · exact Or.inr (Or.inr (Or.inr ⟨by omega, by omega⟩))
  · cases h

theorem Reach.src_mem {w h : Int} {ok : Cell → Bool} {a c : Cell}
    (r : Reach w h ok a c) : inBP w h a ∧ ok a = true := by
  induction r with
  | refl hb ho => exact ⟨hb, ho⟩
  | step b c r hadj hb ho ih => exact ih

theorem Reach.dst_mem {w h : Int} {ok : Cell → Bool} {a c : Cell}
    (r : Reach w h ok a c) : inBP w h c ∧ ok c = true := by
  induction r with
  | refl hb ho => exact ⟨hb, ho⟩
  | step b c r hadj hb ho ih => exact ⟨hb, ho⟩

theorem Reach.trans {w h : Int} {ok : Cell → Bool} {a b c : Cell}
    (r1 : Reach w h ok a b) (r2 : Reach w h ok b c) : Reach w h ok a c := by
  induction r2 with
  | refl hb ho => exact r1
  | step y z r hadj hb ho ih => exact Reach.step a y z ih hadj hb ho

theorem reach_symm {w h : Int} {ok : Cell → Bool} {a c : Cell}
    (r : Reach w h ok a c) : Reach w h ok c a := by
  induction r with
  | refl hb ho => exact Reach.refl _ hb ho
  | step b c rab hadj hb ho ih =>
    have hsrc := Reach.dst_mem rab
    exact Reach.trans
      (Reach.step c c b (Reach.refl c hb ho) (adj_symm hadj) hsrc.1 hsrc.2) ih

/-! ## The neighbor-push fold

One iteration of the BFS `while` loop folds `pushNeighbor` over the four
offsets.  `foldPush_master` describes the effect of folding over any
offset list: the queue grows by a duplicate-free list `news` of freshly
marked pixels, already-marked pixels keep their values, every fresh mark
is an in-bounds admissible neighbor and carries the value `lab`, and
afterwards every in-bounds admissible neighbor of the popped pixel is
marked. -/

theorem pushNeighbor_cases (w h : Int) (ok : Cell → Bool) (lab : Nat)
    (c : Cell) (st : Grid × List Cell) (d : Cell) :
    pushNeighbor w h ok lab c st d = st ∨
    (st.1 (c.1 + d.1, c.2 + d.2) = 0 ∧ inBP w h (c.1 + d.1, c.2 + d.2) ∧
      ok (c.1 + d.1, c.2 + d.2) = true ∧
      pushNeighbor w h ok lab c st d =
        (updG st.1 (c.1 + d.1, c.2 + d.2) lab,
          st.2 ++ [(c.1 + d.1, c.2 + d.2)])) := by
  by_cases hc : 0 ≤ c.1 + d.1 ∧ c.1 + d.1 < w ∧ 0 ≤ c.2 + d.2 ∧ c.2 + d.2 < h ∧
      st.1 (c.1 + d.1, c.2 + d.2) = 0 ∧ ok (c.1 + d.1, c.2 + d.2) = true
  · refine Or.inr ⟨hc.2.2.2.2.1, ⟨hc.1, hc.2.1, hc.2.2.1, hc.2.2.2.1⟩,
      hc.2.2.2.2.2, ?_⟩
    simp only [pushNeighbor, if_pos hc]
  · exact Or.inl (by simp only [pushNeighbor, if_neg hc])

theorem foldPush_master (w h : Int) (ok : Cell → Bool) (lab : Nat)
    (c : Cell) (hlab : lab ≠ 0) :
    ∀ (ds : List Cell) (g : Grid) (q : List Cell),
    ∃ news : List Cell,
      (ds.foldl (pushNeighbor w h ok lab c) (g, q)).2 = q ++ news ∧
      news.Nodup ∧
      (∀ d, g d ≠ 0 → (ds.foldl (pushNeighbor w h ok lab c) (g, q)).1 d = g d) ∧
      (∀ d, d ∈ news ↔
        (g d = 0 ∧ (ds.foldl (pushNeighbor w h ok lab c) (g, q)).1 d ≠ 0)) ∧
      (∀ d, d ∈ news →
        (ds.foldl (pushNeighbor w h ok lab c) (g, q)).1 d = lab ∧
          inBP w h d ∧ ok d = true ∧
          ∃ e ∈ ds, d = (c.1 + e.1, c.2 + e.2)) ∧
      (∀ e ∈ ds, inBP w h (c.1 + e.1, c.2 + e.2) →
        ok (c.1 + e.1, c.2 + e.2) = true →
        (ds.foldl (pushNeighbor w h ok lab c) (g, q)).1 (c.1 + e.1, c.2 + e.2) ≠ 0) := by
  intro ds
  induction ds with
  | nil =>
    intro g q
    exact ⟨[], by simp, List.nodup_nil, fun d _ => rfl, by simp,
      by simp, by simp⟩
  | cons d ds ih =>
    intro g q
    rcases pushNeighbor_cases w h ok lab c (g, q) d with heq | ⟨h0, hin, hok, heq⟩
    · -- no push: the state is unchanged by this offset
      obtain ⟨news, hq, hnd, hval, hmem, hprops, hcover⟩ := ih g q
      refine ⟨news, ?_, hnd, ?_, ?_, ?_, ?_⟩
      · simpa only [List.foldl_cons, heq] using hq
      · simpa only [List.foldl_cons, heq] using hval
      · simpa only [List.foldl_cons, heq] using hmem
      · intro d' hd'
        obtain ⟨h1, h2, h3, e, he, hde⟩ := hprops d' hd'
        exact ⟨by simpa only [List.foldl_cons, heq] using h1, h2, h3,
          e, List.mem_cons_of_mem d he, hde⟩
      · intro e he hin' hok'
        simp only [List.foldl_cons, heq]
        rcases List.mem_cons.mp he with rfl | he'
        · -- this very offset was not pushed, so its target was marked
          have : g (c.1 + e.1, c.2 + e.2) ≠ 0 := by
            intro hz
            rcases pushNeighbor_cases w h ok lab c (g, q) e with h' | ⟨_, _, _, h'⟩
            · -- the guard must then have failed, impossible
              have : ¬(0 ≤ c.1 + e.1 ∧ c.1 + e.1 < w ∧ 0 ≤ c.2 + e.2 ∧
                  c.2 + e.2 < h ∧ g (c.1 + e.1, c.2 + e.2) = 0 ∧
                  ok (c.1 + e.1, c.2 + e.2) = true) := by
                intro hcond
                have := heq
                simp only [pushNeighbor, if_pos hcond] at this
                have h2 := congrArg Prod.snd this
                simp at h2
              exact this ⟨hin'.1, hin'.2.1, hin'.2.2.1, hin'.2.2.2, hz, hok'⟩
            · have h2 := congrArg Prod.snd (heq ▸ h')
              simp at h2
          intro hz
          exact this (by have := hval _ this; omega)
        · exact hcover e he' hin' hok'
    · -- push: the neighbor n is freshly marked and appended
      obtain ⟨news, hq, hnd, hval, hmem, hprops, hcover⟩ :=
        ih (updG g (c.1 + d.1, c.2 + d.2) lab) (q ++ [(c.1 + d.1, c.2 + d.2)])
      have hupd_n : updG g (c.1 + d.1, c.2 + d.2) lab (c.1 + d.1, c.2 + d.2) = lab := by
        simp [updG]
      have hupd_ne : ∀ d', d' ≠ (c.1 + d.1, c.2 + d.2) →
          updG g (c.1 + d.1, c.2 + d.2) lab d' = g d' := by
        intro d' hne; simp [updG, hne]
      refine ⟨(c.1 + d.1, c.2 + d.2) :: news, ?_, ?_, ?_, ?_, ?_, ?_⟩
      · simp only [List.foldl_cons, heq, hq, List.append_assoc,
          List.singleton_append]
      · refine List.nodup_cons.mpr ⟨?_, hnd⟩
        intro hmem'
        have := (hmem _).mp hmem'
        rw [hupd_n] at this
        exact hlab this.1
      · intro d' hd'
        have hne : d' ≠ (c.1 + d.1, c.2 + d.2) := by
          intro he; rw [he] at hd'; exact hd' h0
        simp only [List.foldl_cons, heq]
        rw [hval d' (by rw [hupd_ne d' hne]; exact hd'), hupd_ne d' hne]
      · intro d'
        simp only [List.mem_cons, List.foldl_cons, heq]
        constructor
        · rintro (rfl | hd')
          · refine ⟨h0, ?_⟩
            rw [hval _ (by rw [hupd_n]; exact hlab), hupd_n]
            exact hlab
          · have := (hmem _).mp hd'
            refine ⟨?_, this.2⟩
            by_cases he : d' = (c.1 + d.1, c.2 + d.2)
            · rw [he]; exact h0
            · rw [hupd_ne d' he] at this; exact this.1
        · rintro ⟨hz, hnz⟩
          by_cases he : d' = (c.1 + d.1, c.2 + d.2)
          · exact Or.inl he
          · exact Or.inr ((hmem _).mpr ⟨by rw [hupd_ne d' he]; exact hz, hnz⟩)
      · intro d'
        simp only [List.mem_cons]
        rintro (rfl | hd')
        · refine ⟨?_, hin, hok, d, Or.inl rfl, rfl⟩
          simp only [List.foldl_cons, heq]
          rw [hval _ (by rw [hupd_n]; exact hlab), hupd_n]
        · obtain ⟨h1, h2, h3, e, he, hde⟩ := hprops d' hd'
          exact ⟨by simpa only [List.foldl_cons, heq] using h1, h2, h3,
            e, Or.inr he, hde⟩
      · intro e he hin' hok'
        simp only [List.foldl_cons, heq]
        rcases List.mem_cons.mp he with rfl | he'
        · rw [hval _ (by rw [hupd_n]; exact hlab), hupd_n]
          exact hlab
        · exact hcover e he' hin' hok'

theorem adj_iff_offset {c b : Cell} :
    Adj c b ↔ ∃ e ∈ offsets, b = (c.1 + e.1, c.2 + e.2) := by
  constructor
  · intro hadj
    rcases hadj with ⟨h1, h2⟩ | ⟨h1, h2⟩ | ⟨h1, h2⟩ | ⟨h1, h2⟩
    · exact ⟨(-1, 0), by simp [offsets], by ext <;> simp <;> omega⟩
    · exact ⟨(1, 0), by simp [offsets], by ext <;> simp <;> omega⟩
    · exact ⟨(0, -1), by simp [offsets], by ext <;> simp <;> omega⟩
    · exact ⟨(0, 1), by simp [offsets], by ext <;> simp <;> omega⟩
  · rintro ⟨e, he, rfl⟩
    exact adj_of_offset he

/-! ## BFS loop lemmas -/

theorem bfsAux_nil (w h : Int) (ok : Cell → Bool) (lab : Nat) (fuel : Nat)
    (g : Grid) : bfsAux w h ok lab fuel g [] = ⟨g, [], []⟩ := by
  cases fuel <;> rfl

theorem bfsAux_cons (w h : Int) (ok : Cell → Bool) (lab : Nat) (fuel : Nat)
    (g : Grid) (c : Cell) (q : List Cell) :
    bfsAux w h ok lab (fuel + 1) g (c :: q) =
      ⟨(bfsAux w h ok lab fuel
          (offsets.foldl (pushNeighbor w h ok lab c) (g, q)).1
          (offsets.foldl (pushNeighbor w h ok lab c) (g, q)).2).grid,
        (bfsAux w h ok lab fuel
          (offsets.foldl (pushNeighbor w h ok lab c) (g, q)).1
          (offsets.foldl (pushNeighbor w h ok lab c) (g, q)).2).queue,
        c :: (bfsAux w h ok lab fuel
          (offsets.foldl (pushNeighbor w h ok lab c) (g, q)).1
          (offsets.foldl (pushNeighbor w h ok lab c) (g, q)).2).trace⟩ := rfl

theorem bfs_grid_stable (w h : Int) (ok : Cell → Bool) (lab : Nat)
    (hlab : lab ≠ 0) :
    ∀ (fuel : Nat) (g : Grid) (q : List Cell) (d : Cell), g d ≠ 0 →
      (bfsAux w h ok lab fuel g q).grid d = g d := by
  intro fuel
  induction fuel with
  | zero => intro g q d _; rfl
  | succ fuel ih =>
    intro g q d hd
    cases q with
    | nil => rw [bfsAux_nil]
    | cons c q =>
      obtain ⟨news, _, _, hval, _, _, _⟩ :=
        foldPush_master w h ok lab c hlab offsets g q
      rw [bfsAux_cons]
      exact (ih _ _ d (by rw [hval d hd]; exact hd)).trans (hval d hd)

theorem bfs_new (w h : Int) (ok : Cell → Bool) (lab : Nat) (hlab : lab ≠ 0) :
    ∀ (fuel : Nat) (g : Grid) (q : List Cell) (d : Cell),
      (bfsAux w h ok lab fuel g q).grid d ≠ 0 →
      g d ≠ 0 ∨ ((bfsAux w h ok lab fuel g q).grid d = lab ∧
        inBP w h d ∧ ok d = true) := by
  intro fuel
  induction fuel with
  | zero => intro g q d hd; exact Or.inl hd
  | succ fuel ih =>
    intro g q d hd
    cases q with
    | nil => rw [bfsAux_nil] at hd ⊢; exact Or.inl hd
    | cons c q =>
      obtain ⟨news, _, _, hval, hmem, hprops, _⟩ :=
        foldPush_master w h ok lab c hlab offsets g q
      rw [bfsAux_cons] at hd ⊢
      rcases ih _ _ d hd with hF | ⟨hv, hin, hok⟩
      · by_cases hg : g d = 0
        · have hdn : d ∈ news := (hmem d).mpr ⟨hg, hF⟩
          obtain ⟨h1, h2, h3, _⟩ := hprops d hdn
          exact Or.inr ⟨(bfs_grid_stable w h ok lab hlab _ _ _ d hF).trans h1,
            h2, h3⟩
        · exact Or.inl hg
      · exact Or.inr ⟨hv, hin, hok⟩

theorem bfs_sound (w h : Int) (ok : Cell → Bool) (lab : Nat) (hlab : lab ≠ 0)
    (R : Cell → Prop)
    (hR : ∀ a b, R a → Adj a b → inBP w h b → ok b = true → R b) :
    ∀ (fuel : Nat) (g : Grid) (q : List Cell), (∀ a ∈ q, R a) →
      ∀ d, (bfsAux w h ok lab fuel g q).grid d ≠ 0 → g d ≠ 0 ∨ R d := by
  intro fuel
  induction fuel with
  | zero => intro g q _ d hd; exact Or.inl hd
  | succ fuel ih =>
    intro g q hq d hd
    cases q with
    | nil => rw [bfsAux_nil] at hd; exact Or.inl hd
    | cons c q =>
      obtain ⟨news, hq2, _, hval, hmem, hprops, _⟩ :=
        foldPush_master w h ok lab c hlab offsets g q
      rw [bfsAux_cons] at hd
      have hq' : ∀ a ∈ (offsets.foldl (pushNeighbor w h ok lab c) (g, q)).2, R a := by
        rw [hq2]
        intro a ha
        rcases List.mem_append.mp ha with ha | ha
        · exact hq a (List.mem_cons_of_mem c ha)
        · obtain ⟨_, h2, h3, e, he, hde⟩ := hprops a ha
          subst hde
          exact hR c _ (hq c (List.mem_cons_self c q)) (adj_of_offset he) h2 h3
      rcases ih _ _ hq' d hd with hF | hRd
      · by_cases hg : g d = 0
        · have hdn : d ∈ news := (hmem d).mpr ⟨hg, hF⟩
          obtain ⟨_, h2, h3, e, he, hde⟩ := hprops d hdn
          subst hde
          exact Or.inr (hR c _ (hq c (List.mem_cons_self c q)) (adj_of_offset he) h2 h3)
        · exact Or.inl hg
      · exact Or.inr hRd

theorem bfs_closed (w h : Int) (ok : Cell → Bool) (lab : Nat) (hlab : lab ≠ 0) :
    ∀ (fuel : Nat) (g : Grid) (q : List Cell),
      (bfsAux w h ok lab fuel g q).queue = [] →
      (∀ a, g a ≠ 0 → a ∈ q ∨
        ∀ b, Adj a b → inBP w h b → ok b = true → g b ≠ 0) →
      ∀ a, (bfsAux w h ok lab fuel g q).grid a ≠ 0 →
        ∀ b, Adj a b → inBP w h b → ok b = true →
          (bfsAux w h ok lab fuel g q).grid b ≠ 0 := by
  intro fuel
  induction fuel with
  | zero =>
    intro g q hqe hcl a ha b hadj hb hok
    have : q = [] := hqe
    subst this
    rcases hcl a ha with h | h
    · cases h
    · exact h b hadj hb hok
  | succ fuel ih =>
    intro g q hqe hcl a ha b hadj hb hok
    cases q with
    | nil =>
      rw [bfsAux_nil] at ha ⊢
      rcases hcl a ha with h | h
      · cases h
      · exact h b hadj hb hok
    | cons c q =>
      obtain ⟨news, hq2, _, hval, hmem, hprops, hcover⟩ :=
        foldPush_master w h ok lab c hlab offsets g q
      rw [bfsAux_cons] at hqe ha ⊢
      refine ih _ _ hqe ?_ a ha b hadj hb hok
      intro a' ha'
      by_cases hg : g a' = 0
      · have : a' ∈ news := (hmem a').mpr ⟨hg, ha'⟩
        exact Or.inl (by rw [hq2]; exact List.mem_append.mpr (Or.inr this))
      · rcases hcl a' hg with h | h
        · rcases List.mem_cons.mp h with rfl | h'
          · -- the popped pixel: the fold marked all its admissible neighbors
            refine Or.inr ?_
            intro b' hadj' hb' hok'
            obtain ⟨e, he, rfl⟩ := adj_iff_offset.mp hadj'
            exact hcover e he hb' hok'
          · exact Or.inl (by rw [hq2]; exact List.mem_append.mpr (Or.inl h'))
        · refine Or.inr ?_
          intro b' hadj' hb' hok'
          have := h b' hadj' hb' hok'
          rw [hval b' this]
          exact this

theorem foldPush_measure (w h : Int) (ok : Cell → Bool) (lab : Nat)
    (hlab : lab ≠ 0) (c : Cell) (g : Grid) (q : List Cell) :
    5 * unmarked w h (offsets.foldl (pushNeighbor w h ok lab c) (g, q)).1 +
      ((offsets.foldl (pushNeighbor w h ok lab c) (g, q)).2).length ≤
    5 * unmarked w h g + q.length := by
  obtain ⟨news, hq2, hnd, hval, hmem, hprops, _⟩ :=
    foldPush_master w h ok lab c hlab offsets g q
  have hset : (inBFin w h).filter
        (fun d => (offsets.foldl (pushNeighbor w h ok lab c) (g, q)).1 d = 0) =
      ((inBFin w h).filter fun d => g d = 0) \ news.toFinset := by
    ext a
    simp only [Finset.mem_filter, Finset.mem_sdiff, List.mem_toFinset]
    constructor
    · intro ⟨h1, h2⟩
      have hga : g a = 0 := by
        by_contra hga
        rw [hval a hga] at h2
        exact hga h2
      refine ⟨⟨h1, hga⟩, ?_⟩
      intro hmem'
      obtain ⟨hv, _, _, _⟩ := hprops a hmem'
      rw [h2] at hv
      exact hlab hv.symm
    · intro ⟨⟨h1, h2⟩, h3⟩
      refine ⟨h1, ?_⟩
      by_contra hne
      exact h3 ((hmem a).mpr ⟨h2, hne⟩)
  have hsub : news.toFinset ⊆ (inBFin w h).filter fun d => g d = 0 := by
    intro a ha
    rw [List.mem_toFinset] at ha
    obtain ⟨_, h2, _, _⟩ := hprops a ha
    exact Finset.mem_filter.mpr ⟨(mem_inBFin w h a).mpr h2, ((hmem a).mp ha).1⟩
  have hcard : unmarked w h (offsets.foldl (pushNeighbor w h ok lab c) (g, q)).1 =
      unmarked w h g - news.length := by
    unfold unmarked
    rw [hset, Finset.card_sdiff hsub, List.toFinset_card_of_nodup hnd]
  have hle : news.length ≤ unmarked w h g := by
    have := Finset.card_le_card hsub
    rw [List.toFinset_card_of_nodup hnd] at this
    exact this
  rw [hcard, hq2, List.length_append]
  omega

theorem bfs_empty (w h : Int) (ok : Cell → Bool) (lab : Nat) (hlab : lab ≠ 0) :
    ∀ (fuel : Nat) (g : Grid) (q : List Cell),
      5 * unmarked w h g + q.length ≤ fuel →
      (bfsAux w h ok lab fuel g q).queue = [] := by
  intro fuel
  induction fuel with
  | zero =>
    intro g q hle
    have : q = [] := List.length_eq_zero.mp (by omega)
    subst this
    rfl
  | succ fuel ih =>
    intro g q hle
    cases q with
    | nil => rw [bfsAux_nil]
    | cons c q =>
      rw [bfsAux_cons]
      refine ih _ _ ?_
      have := foldPush_measure w h ok lab hlab c g q
      simp only [List.length_cons] at hle
      omega

theorem bfs_fuel_stable (w h : Int) (ok : Cell → Bool) (lab : Nat) :
    ∀ (fuel : Nat) (g : Grid) (q : List Cell),
      (bfsAux w h ok lab fuel g q).queue = [] →
      ∀ k, bfsAux w h ok lab (fuel + k) g q = bfsAux w h ok lab fuel g q := by
  intro fuel
  induction fuel with
  | zero =>
    intro g q hqe k
    have : q = [] := hqe
    subst this
    rw [bfsAux_nil, bfsAux_nil]
  | succ fuel ih =>
    intro g q hqe k
    cases q with
    | nil => rw [bfsAux_nil, bfsAux_nil]
    | cons c q =>
      rw [bfsAux_cons] at hqe
      have : fuel + 1 + k = (fuel + k) + 1 := by omega
      rw [this, bfsAux_cons, bfsAux_cons, ih _ _ hqe k]

theorem bfs_trace (w h : Int) (ok : Cell → Bool) (lab : Nat) (hlab : lab ≠ 0) :
    ∀ (fuel : Nat) (g : Grid) (q : List Cell),
      (∀ a ∈ q, g a ≠ 0) → q.Nodup →
      (bfsAux w h ok lab fuel g q).queue = [] →
      (bfsAux w h ok lab fuel g q).trace.Nodup ∧
      (∀ d, d ∈ (bfsAux w h ok lab fuel g q).trace ↔
        (d ∈ q ∨ (g d = 0 ∧ (bfsAux w h ok lab fuel g q).grid d ≠ 0))) := by
  intro fuel
  induction fuel with
  | zero =>
    intro g q hq hnd hqe
    have : q = [] := hqe
    subst this
    rw [bfsAux_nil]
    exact ⟨List.nodup_nil, by simp⟩
  | succ fuel ih =>
    intro g q hq hnd hqe
    cases q with
    | nil =>
      rw [bfsAux_nil] at hqe ⊢
      exact ⟨List.nodup_nil, by simp⟩
    | cons c q =>
      obtain ⟨news, hq2, hnewsnd, hval, hmem, hprops, _⟩ :=
        foldPush_master w h ok lab c hlab offsets g q
      rw [bfsAux_cons] at hqe ⊢
      have hqmark : ∀ a ∈ (offsets.foldl (pushNeighbor w h ok lab c) (g, q)).2,
          (offsets.foldl (pushNeighbor w h ok lab c) (g, q)).1 a ≠ 0 := by
        rw [hq2]
        intro a ha
        rcases List.mem_append.mp ha with ha | ha
        · have := hq a (List.mem_cons_of_mem c ha)
          rw [hval a this]
          exact this
        · obtain ⟨hv, _, _, _⟩ := hprops a ha
          rw [hv]
          exact hlab
      have hqnd : (offsets.foldl (pushNeighbor w h ok lab c) (g, q)).2.Nodup := by
        rw [hq2]
        refine List.nodup_append.mpr ⟨(List.nodup_cons.mp hnd).2, hnewsnd, ?_⟩
        intro a ha ha'
        exact absurd ((hmem a).mp ha').1 (hq a (List.mem_cons_of_mem c ha))
      obtain ⟨ihnd, ihmem⟩ := ih _ _ hqmark hqnd hqe
      have hcmark : g c ≠ 0 := hq c (List.mem_cons_self c q)
      have hcF : (offsets.foldl (pushNeighbor w h ok lab c) (g, q)).1 c ≠ 0 := by
        rw [hval c hcmark]; exact hcmark
      constructor
      · refine List.nodup_cons.mpr ⟨?_, ihnd⟩
        intro hctr
        rcases (ihmem c).mp hctr with hcq | ⟨hc0, _⟩
        · rw [hq2] at hcq
          rcases List.mem_append.mp hcq with hcq | hcq
          · exact (List.nodup_cons.mp hnd).1 hcq
          · exact hcmark ((hmem c).mp hcq).1
        · exact hcF hc0
      · intro d
        simp only [List.mem_cons]
        constructor
        · rintro (rfl | hdtr)
          · exact Or.inl (Or.inl rfl)
          · rcases (ihmem d).mp hdtr with hdq | ⟨hd0, hdg⟩
            · rw [hq2] at hdq
              rcases List.mem_append.mp hdq with hdq | hdq
              · exact Or.inl (Or.inr hdq)
              · have hlabd := (hprops d hdq).1
                refine Or.inr ⟨((hmem d).mp hdq).1, ?_⟩
                rw [bfs_grid_stable w h ok lab hlab fuel _ _ d
                  (by rw [hlabd]; exact hlab), hlabd]
                exact hlab
            · refine Or.inr ⟨?_, hdg⟩
              by_contra hgd
              rw [hval d hgd] at hd0
              exact hgd hd0
        · rintro ((rfl | hdq) | ⟨hd0, hdg⟩)
          · exact Or.inl rfl
          · refine Or.inr ((ihmem d).mpr (Or.inl ?_))
            rw [hq2]
            exact List.mem_append.mpr (Or.inl hdq)
          · by_cases hF : (offsets.foldl (pushNeighbor w h ok lab c) (g, q)).1 d = 0
            · exact Or.inr ((ihmem d).mpr (Or.inr ⟨hF, hdg⟩))
            · refine Or.inr ((ihmem d).mpr (Or.inl ?_))
              rw [hq2]
              exact List.mem_append.mpr (Or.inr ((hmem d).mpr ⟨hd0, hF⟩))

theorem pushNeighbor_congr (w h : Int) (ok1 ok2 : Cell → Bool) (lab : Nat)
    (hok : ∀ d, inBP w h d → ok1 d = ok2 d) (c : Cell)
    (st : Grid × List Cell) (d : Cell) :
    pushNeighbor w h ok1 lab c st d = pushNeighbor w h ok2 lab c st d := by
  unfold pushNeighbor
  by_cases hb : 0 ≤ c.1 + d.1 ∧ c.1 + d.1 < w ∧ 0 ≤ c.2 + d.2 ∧ c.2 + d.2 < h
  · rw [hok (c.1 + d.1, c.2 + d.2) ⟨hb.1, hb.2.1, hb.2.2.1, hb.2.2.2⟩]
  · rw [if_neg (by tauto), if_neg (by tauto)]

theorem bfs_congr (w h : Int) (ok1 ok2 : Cell → Bool) (lab : Nat)
    (hok : ∀ d, inBP w h d → ok1 d = ok2 d) :
    ∀ (fuel : Nat) (g : Grid) (q : List Cell),
      bfsAux w h ok1 lab fuel g q = bfsAux w h ok2 lab fuel g q := by
  have hfold : ∀ (c : Cell) (ds : List Cell) (st : Grid × List Cell),
      ds.foldl (pushNeighbor w h ok1 lab c) st =
      ds.foldl (pushNeighbor w h ok2 lab c) st := by
    intro c ds
    induction ds with
    | nil => intro st; rfl
    | cons d ds ih =>
      intro st
      rw [List.foldl_cons, List.foldl_cons,
        pushNeighbor_congr w h ok1 ok2 lab hok c st d, ih]
  intro fuel
  induction fuel with
  | zero => intro g q; rfl
  | succ fuel ih =>
    intro g q
    cases q with
    | nil => rw [bfsAux_nil, bfsAux_nil]
    | cons c q => rw [bfsAux_cons, bfsAux_cons, hfold c offsets (g, q), ih]

/-! ## Border seeding -/

theorem seedFold_master (t : Cell → Bool) :
    ∀ (L : List Cell) (g : Grid) (q : List Cell),
    ∃ news : List Cell,
      (L.foldl (seedCell t) (g, q)).2 = q ++ news ∧
      news.Nodup ∧
      (∀ d, g d ≠ 0 → (L.foldl (seedCell t) (g, q)).1 d = g d) ∧
      (∀ d, d ∈ news ↔ (g d = 0 ∧ (L.foldl (seedCell t) (g, q)).1 d ≠ 0)) ∧
      (∀ d, d ∈ news →
        (L.foldl (seedCell t) (g, q)).1 d = 1 ∧ t d = true ∧ d ∈ L) ∧
      (∀ d, (L.foldl (seedCell t) (g, q)).1 d ≠ 0 ↔
        (g d ≠ 0 ∨ (d ∈ L ∧ t d = true))) := by
  intro L
  induction L with
  | nil =>
    intro g q
    exact ⟨[], by simp, List.nodup_nil, fun d _ => rfl, by simp, by simp,
      by simp⟩
  | cons c L ih =>
    intro g q
    by_cases hc : t c = true ∧ g c = 0
    · -- the candidate is seeded
      obtain ⟨news, hq, hnd, hval, hmem, hprops, hiff⟩ :=
        ih (updG g c 1) (q ++ [c])
      have hupd_c : updG g c 1 c = 1 := by simp [updG]
      have hupd_ne : ∀ d, d ≠ c → updG g c 1 d = g d := by
        intro d hne; simp [updG, hne]
      have hstep : (c :: L).foldl (seedCell t) (g, q) =
          L.foldl (seedCell t) (updG g c 1, q ++ [c]) := by
        rw [List.foldl_cons]
        congr 1
        simp only [seedCell, if_pos hc]
      refine ⟨c :: news, ?_, ?_, ?_, ?_, ?_, ?_⟩
      · rw [hstep, hq, List.append_assoc, List.singleton_append]
      · refine List.nodup_cons.mpr ⟨?_, hnd⟩
        intro hmem'
        have := (hmem _).mp hmem'
        rw [hupd_c] at this
        exact absurd this.1 (by omega)
      · intro d hd
        have hne : d ≠ c := fun he => (he ▸ hd) hc.2
        rw [hstep, hval d (by rw [hupd_ne d hne]; exact hd), hupd_ne d hne]
      · intro d
        rw [hstep]
        simp only [List.mem_cons]
        constructor
        · rintro (rfl | hd)
          · refine ⟨hc.2, ?_⟩
            rw [hval _ (by rw [hupd_c]; omega), hupd_c]
            omega
          · have := (hmem _).mp hd
            refine ⟨?_, this.2⟩
            by_cases he : d = c
            · rw [he]; exact hc.2
            · rw [hupd_ne d he] at this; exact this.1
        · rintro ⟨hz, hnz⟩
          by_cases he : d = c
          · exact Or.inl he
          · exact Or.inr ((hmem _).mpr ⟨by rw [hupd_ne d he]; exact hz, hnz⟩)
      · intro d
        simp only [List.mem_cons]
        rintro (rfl | hd)
        · refine ⟨?_, hc.1, Or.inl rfl⟩
          rw [hstep, hval _ (by rw [hupd_c]; omega), hupd_c]
        · obtain ⟨h1, h2, h3⟩ := hprops d hd
          exact ⟨by rw [hstep]; exact h1, h2, Or.inr h3⟩
      · intro d
        rw [hstep, hiff d]
        simp only [List.mem_cons]
        constructor
        · rintro (hd | ⟨hdL, hdt⟩)
          · by_cases he : d = c
            · exact Or.inr ⟨Or.inl he, he ▸ hc.1⟩
            · exact Or.inl (by rw [hupd_ne d he] at hd; exact hd)
          · exact Or.inr ⟨Or.inr hdL, hdt⟩
        · rintro (hd | ⟨(rfl | hdL), hdt⟩)
          · by_cases he : d = c
            · exact Or.inl (by rw [he, hupd_c]; omega)
            · exact Or.inl (by rw [hupd_ne d he]; exact hd)
          · exact Or.inl (by rw [hupd_c]; omega)
          · exact Or.inr ⟨hdL, hdt⟩
    · -- the candidate is skipped (opaque, or already visited)
      obtain ⟨news, hq, hnd, hval, hmem, hprops, hiff⟩ := ih g q
      have hstep : (c :: L).foldl (seedCell t) (g, q) =
          L.foldl (seedCell t) (g, q) := by
        rw [List.foldl_cons]
        congr 1
        simp only [seedCell, if_neg hc]
      refine ⟨news, by rw [hstep]; exact hq, hnd,
        by rw [hstep]; exact hval, by rw [hstep]; exact hmem, ?_, ?_⟩
      · intro d hd
        obtain ⟨h1, h2, h3⟩ := hprops d hd
        exact ⟨by rw [hstep]; exact h1, h2, List.mem_cons_of_mem c h3⟩
      · intro d
        rw [hstep, hiff d]
        simp only [List.mem_cons]
        constructor
        · rintro (hd | ⟨hdL, hdt⟩)
          · exact Or.inl hd
          · exact Or.inr ⟨Or.inr hdL, hdt⟩
        · rintro (hd | ⟨(rfl | hdL), hdt⟩)
          · exact Or.inl hd
          · exact Or.inl (fun hz => hc ⟨hdt, hz⟩)
          · exact Or.inr ⟨hdL, hdt⟩

theorem length_pairs_flatMap {α β : Type} (f g : α → β) (l : List α) :
    (l.flatMap fun x => [f x, g x]).length = 2 * l.length := by
  induction l with
  | nil => rfl
  | cons a l ih => simp only [List.flatMap_cons, List.length_append,
      List.length_cons, List.length_nil, ih]; omega

theorem borderCells_length (w h : Int) :
    (borderCells w h).length = 2 * w.toNat + 2 * (h - 2).toNat := by
  unfold borderCells
  rw [List.length_append, length_pairs_flatMap, length_pairs_flatMap,
    List.length_range, List.length_range]

theorem mem_borderCells (w h : Int) (hw : 0 < w) (hh : 0 < h) (c : Cell) :
    c ∈ borderCells w h ↔ borderP w h c := by
  unfold borderCells
  rw [List.mem_append]
  have h1 : c ∈ ((List.range w.toNat).flatMap fun x =>
      [((x : Int), 0), ((x : Int), h - 1)]) ↔
      (0 ≤ c.1 ∧ c.1 < w ∧ (c.2 = 0 ∨ c.2 = h - 1)) := by
    simp only [List.mem_flatMap, List.mem_range, List.mem_cons,
      List.mem_singleton, List.not_mem_nil, or_false, Prod.ext_iff]
    constructor
    · rintro ⟨x, hx, (⟨h1, h2⟩ | ⟨h1, h2⟩)⟩ <;> omega
    · rintro ⟨h1, h2, (h3 | h3)⟩
      · exact ⟨c.1.toNat, by omega, Or.inl ⟨by omega, by omega⟩⟩
      · exact ⟨c.1.toNat, by omega, Or.inr ⟨by omega, by omega⟩⟩
  have h2 : c ∈ ((List.range (h - 2).toNat).flatMap fun i =>
      [((0 : Int), (i : Int) + 1), (w - 1, (i : Int) + 1)]) ↔
      ((c.1 = 0 ∨ c.1 = w - 1) ∧ 1 ≤ c.2 ∧ c.2 ≤ h - 2) := by
    simp only [List.mem_flatMap, List.mem_range, List.mem_cons,
      List.mem_singleton, List.not_mem_nil, or_false, Prod.ext_iff]
    constructor
    · rintro ⟨x, hx, (⟨ha, hb⟩ | ⟨ha, hb⟩)⟩ <;> omega
    · rintro ⟨h3, h4, h5⟩
      rcases h3 with h3 | h3
      · exact ⟨(c.2 - 1).toNat, by omega, Or.inl ⟨by omega, by omega⟩⟩
      · exact ⟨(c.2 - 1).toNat, by omega, Or.inr ⟨by omega, by omega⟩⟩
  rw [h1, h2]
  unfold borderP inBP
  omega

/-- A grid closed under admissible adjacency keeps reachable pixels
marked. -/
theorem reach_marked (w h : Int) (ok : Cell → Bool) (G : Grid)
    (hcl : ∀ a, G a ≠ 0 → ∀ b, Adj a b → inBP w h b → ok b = true → G b ≠ 0) :
    ∀ a c, Reach w h ok a c → G a ≠ 0 → G c ≠ 0 := by
  intro a c hr
  induction hr with
  | refl hb ho => exact id
  | step b c r hadj hb ho ih =>
    intro ha
    exact hcl b (ih ha) c hadj hb ho

theorem borderRun_eq_seedRun (w h : Int) (t : Cell → Bool) (fuel : Nat) :
    borderRun w h t fuel = seedRun w h t (borderCells w h) fuel := rfl

theorem card_inBFin (w h : Int) : (inBFin w h).card = w.toNat * h.toNat := by
  unfold inBFin
  rw [Finset.card_product, Int.card_Icc, Int.card_Icc]
  congr 1 <;> omega

theorem unmarked_le (w h : Int) (g : Grid) :
    unmarked w h g ≤ w.toNat * h.toNat := by
  unfold unmarked
  rw [← card_inBFin w h]
  exact Finset.card_filter_le _ _

/-- The main characterization of the border flood fill, for any seed
candidate list whose members are exactly the border pixels and any
sufficient fuel: a pixel ends up visited iff it is transparent and
reachable from a transparent border pixel through transparent pixels. -/
theorem seedRun_visited_iff (w h : Int) (t : Cell → Bool)
    (L : List Cell) (hLmem : ∀ c, c ∈ L ↔ borderP w h c)
    (fuel : Nat) (hfuel : 5 * (w.toNat * h.toNat) + L.length ≤ fuel) :
    ∀ c, (seedRun w h t L fuel).grid c ≠ 0 ↔
      (t c = true ∧ ∃ b, borderP w h b ∧ t b = true ∧ Reach w h t b c) := by
  obtain ⟨news, hq, hnd, hval, hmem, hprops, hiff⟩ :=
    seedFold_master t L (fun _ => 0) []
  have hseed_iff : ∀ d, (L.foldl (seedCell t) (fun _ => 0, [])).1 d ≠ 0 ↔
      (borderP w h d ∧ t d = true) := by
    intro d
    rw [hiff d]
    simp only [ne_eq, not_true_eq_false, false_or]
    rw [hLmem d]
  have hqeq : (L.foldl (seedCell t) (fun _ => 0, [])).2 = news := by
    simpa using hq
  have hqmem : ∀ d, d ∈ (L.foldl (seedCell t) (fun _ => 0, [])).2 ↔
      (borderP w h d ∧ t d = true) := by
    intro d
    rw [hqeq]
    rw [hmem d]
    simp only [ne_eq, not_true_eq_false, true_and]
    exact hseed_iff d
  have hqlen : (L.foldl (seedCell t) (fun _ => 0, [])).2.length ≤ L.length := by
    rw [hqeq]
    calc news.length = news.toFinset.card :=
          (List.toFinset_card_of_nodup hnd).symm
      _ ≤ L.toFinset.card := Finset.card_le_card (fun a ha => by
          rw [List.mem_toFinset] at ha ⊢
          exact (hprops a ha).2.2)
      _ ≤ L.length := List.toFinset_card_le L
  have hempty : (seedRun w h t L fuel).queue = [] := by
    unfold seedRun
    refine bfs_empty w h t 1 one_ne_zero fuel _ _ ?_
    have := unmarked_le w h (L.foldl (seedCell t) (fun _ => 0, [])).1
    omega
  intro c
  constructor
  · intro hc
    have hsound := bfs_sound w h t 1 one_ne_zero
      (fun d => ∃ b, borderP w h b ∧ t b = true ∧ Reach w h t b d)
      (fun a b ⟨b0, hb0, htb0, hr⟩ hadj hb hok =>
        ⟨b0, hb0, htb0, Reach.step b0 a b hr hadj hb hok⟩)
      fuel _ _
      (fun a ha => by
        obtain ⟨hba, hta⟩ := (hqmem a).mp ha
        exact ⟨a, hba, hta, Reach.refl a hba.1 hta⟩)
      c hc
    have htc : t c = true := by
      rcases bfs_new w h t 1 one_ne_zero fuel _ _ c hc with hg | ⟨_, _, hok⟩
      · exact ((hseed_iff c).mp hg).2
      · exact hok
    refine ⟨htc, ?_⟩
    rcases hsound with hg | hR
    · obtain ⟨hbc, htc'⟩ := (hseed_iff c).mp hg
      exact ⟨c, hbc, htc', Reach.refl c hbc.1 htc'⟩
    · exact hR
  · rintro ⟨htc, b, hbb, htb, hr⟩
    have hbmark : (L.foldl (seedCell t) (fun _ => 0, [])).1 b ≠ 0 :=
      (hseed_iff b).mpr ⟨hbb, htb⟩
    have hbfinal : (seedRun w h t L fuel).grid b ≠ 0 := by
      unfold seedRun
      rw [bfs_grid_stable w h t 1 one_ne_zero fuel _ _ b hbmark]
      exact hbmark
    have hclosed := bfs_closed w h t 1 one_ne_zero fuel
      (L.foldl (seedCell t) (fun _ => 0, [])).1
      (L.foldl (seedCell t) (fun _ => 0, [])).2
      hempty
      (fun a ha => Or.inl ((hqmem a).mpr ((hseed_iff a).mp ha)))
    exact reach_marked w h t (seedRun w h t L fuel).grid hclosed b c hr hbfinal

/-- Every visited mark has value 1. -/
theorem seedRun_val_one (w h : Int) (t : Cell → Bool) (L : List Cell)
    (fuel : Nat) :
    ∀ c, (seedRun w h t L fuel).grid c ≠ 0 →
      (seedRun w h t L fuel).grid c = 1 := by
  intro c hc
  obtain ⟨news, hq, hnd, hval, hmem, hprops, hiff⟩ :=
    seedFold_master t L (fun _ => 0) []
  rcases bfs_new w h t 1 one_ne_zero fuel _ _ c hc with hg | ⟨hv, _, _⟩
  · have h1 : (L.foldl (seedCell t) (fun _ => 0, [])).1 c = 1 := by
      have hn : c ∈ news := (hmem c).mpr ⟨rfl, hg⟩
      exact (hprops c hn).1
    unfold seedRun at hc ⊢
    rw [bfs_grid_stable w h t 1 one_ne_zero fuel _ _ c hg, h1]
  · exact hv

/-- The border flood fill marks a pixel iff it is transparent and
border-reachable (the characterization, stated for the script's own seed
order and fuel). -/
theorem visitedGrid_iff (w h : Int) (t : Cell → Bool) (hw : 0 < w)
    (hh : 0 < h) (c : Cell) :
    visitedGrid w h t c ≠ 0 ↔
      (t c = true ∧ ∃ b, borderP w h b ∧ t b = true ∧ Reach w h t b c) := by
  unfold visitedGrid
  rw [borderRun_eq_seedRun]
  refine seedRun_visited_iff w h t (borderCells w h)
    (mem_borderCells w h hw hh) (borderFuel w h) ?_ c
  rw [borderCells_length]
  unfold borderFuel
  omega

/-- The labeling scan only ever labels pixels satisfying the `intr`
mask. -/
theorem scan_marks_intr (w h : Int) (intr : Cell → Bool) (fuel : Nat) :
    ∀ (P : List Cell) (st : ScanState),
      (∀ c, st.labeled c ≠ 0 → intr c = true) →
      ∀ c, (P.foldl (scanStep w h intr fuel) st).labeled c ≠ 0 →
        intr c = true := by
  intro P
  induction P with
  | nil => intro st hst c hc; exact hst c hc
  | cons p P ih =>
    intro st hst c hc
    rw [List.foldl_cons] at hc
    by_cases hguard : intr p = true ∧ st.labeled p = 0
    · refine ih _ ?_ c hc
      intro d hd
      simp only [scanStep, if_pos hguard] at hd
      rcases bfs_new w h intr (st.label + 1) (Nat.succ_ne_zero _) fuel _ _ d hd
        with hg | ⟨_, _, hok⟩
      · rw [updG_eval] at hg
        by_cases he : d = p
        · exact he ▸ hguard.1
        · rw [if_neg he] at hg
          exact hst d hg
      · exact hok
    · refine ih _ ?_ c (by simpa only [scanStep, if_neg hguard] using hc)
      exact hst

/-- The labeling scan only ever labels in-bounds pixels (given in-bounds
scan positions). -/
theorem scan_marks_inB (w h : Int) (intr : Cell → Bool) (fuel : Nat) :
    ∀ (P : List Cell) (st : ScanState), (∀ c ∈ P, inBP w h c) →
      (∀ c, st.labeled c ≠ 0 → inBP w h c) →
      ∀ c, (P.foldl (scanStep w h intr fuel) st).labeled c ≠ 0 →
        inBP w h c := by
  intro P
  induction P with
  | nil => intro st _ hst c hc; exact hst c hc
  | cons p P ih =>
    intro st hP hst c hc
    rw [List.foldl_cons] at hc
    by_cases hguard : intr p = true ∧ st.labeled p = 0
    · refine ih _ (fun d hd => hP d (List.mem_cons_of_mem p hd)) ?_ c hc
      intro d hd
      simp only [scanStep, if_pos hguard] at hd
      rcases bfs_new w h intr (st.label + 1) (Nat.succ_ne_zero _) fuel _ _ d hd
        with hg | ⟨_, hin, _⟩
      · rw [updG_eval] at hg
        by_cases he : d = p
        · exact he ▸ hP p (List.mem_cons_self p P)
        · rw [if_neg he] at hg
          exact hst d hg
      · exact hin
    · refine ih _ (fun d hd => hP d (List.mem_cons_of_mem p hd)) ?_ c
        (by simpa only [scanStep, if_neg hguard] using hc)
      exact hst

theorem cellsRowMajor_mem (w h : Int) (c : Cell) :
    c ∈ cellsRowMajor w h ↔ inBP w h c := by
  obtain ⟨cx, cy⟩ := c
  unfold cellsRowMajor
  constructor
  · intro hc
    obtain ⟨y, hy, hc2⟩ := List.mem_flatMap.mp hc
    obtain ⟨x, hx, heq⟩ := List.mem_map.mp hc2
    rw [List.mem_range] at hy hx
    rw [Prod.mk.injEq] at heq
    unfold inBP
    simp only
    omega
  · intro hin
    unfold inBP at hin
    simp only at hin
    refine List.mem_flatMap.mpr ⟨cy.toNat, ?_, ?_⟩
    · rw [List.mem_range]; omega
    · refine List.mem_map.mpr ⟨cx.toNat, ?_, ?_⟩
      · rw [List.mem_range]; omega
      · rw [Prod.mk.injEq]
        constructor <;> omega

/-- Labels in the full analysis are only given to interior in-bounds
pixels. -/
theorem analysis_labeled_intr (w h : Int) (t : Cell → Bool) (c : Cell)
    (hc : (analysis w h t).labeled c ≠ 0) :
    interiorMask w h t c = true ∧ inBP w h c := by
  unfold analysis scanRun at hc
  constructor
  · exact scan_marks_intr w h (interiorMask w h t) (compFuel w h)
      (cellsRowMajor w h) _ (fun d hd => absurd rfl hd) c hc
  · exact scan_marks_inB w h (interiorMask w h t) (compFuel w h)
      (cellsRowMajor w h) _ (fun d hd => (cellsRowMajor_mem w h d).mp hd)
      (fun d hd => absurd rfl hd) c hc

theorem nodup_length_le_inB (w h : Int) (l : List Cell) (hnd : l.Nodup)
    (hsub : ∀ c ∈ l, inBP w h c) : l.length ≤ w.toNat * h.toNat := by
  calc l.length = l.toFinset.card := (List.toFinset_card_of_nodup hnd).symm
    _ ≤ (inBFin w h).card := Finset.card_le_card (fun a ha => by
        rw [List.mem_toFinset] at ha
        exact (mem_inBFin w h a).mpr (hsub a ha))
    _ = w.toNat * h.toNat := card_inBFin w h

/-- The border fill's queue provably empties at the fuel the script's
embedding uses, its dequeue list repeats no pixel, and consists of the
seeds plus the fresh marks. -/
theorem borderRun_trace (w h : Int) (t : Cell → Bool) (hw : 0 < w)
    (hh : 0 < h) :
    (borderRun w h t (borderFuel w h)).queue = [] ∧
    (borderRun w h t (borderFuel w h)).trace.Nodup ∧
    (borderRun w h t (borderFuel w h)).trace.length ≤ w.toNat * h.toNat := by
  obtain ⟨news, hq, hnd, hval, hmem, hprops, hiff⟩ :=
    seedFold_master t (borderCells w h) (fun _ => 0) []
  have hqeq : (seedBorder w h t).2 = news := by
    unfold seedBorder
    simpa using hq
  have hqmark : ∀ a ∈ (seedBorder w h t).2, (seedBorder w h t).1 a ≠ 0 := by
    intro a ha
    rw [hqeq] at ha
    unfold seedBorder
    rw [(hprops a ha).1]
    omega
  have hqnodup : (seedBorder w h t).2.Nodup := by rw [hqeq]; exact hnd
  have hqlen : (seedBorder w h t).2.length ≤ (borderCells w h).length := by
    rw [hqeq]
    calc news.length = news.toFinset.card :=
        (List.toFinset_card_of_nodup hnd).symm
      _ ≤ (borderCells w h).toFinset.card := Finset.card_le_card
          (fun a ha => by
            rw [List.mem_toFinset] at ha ⊢
            exact (hprops a ha).2.2)
      _ ≤ (borderCells w h).length := List.toFinset_card_le _
  have hempty : (borderRun w h t (borderFuel w h)).queue = [] := by
    unfold borderRun
    refine bfs_empty w h t 1 one_ne_zero _ _ _ ?_
    have h1 := unmarked_le w h (seedBorder w h t).1
    have h2 := borderCells_length w h
    unfold borderFuel
    omega
  obtain ⟨htnd, htmem⟩ := bfs_trace w h t 1 one_ne_zero (borderFuel w h)
    (seedBorder w h t).1 (seedBorder w h t).2 hqmark hqnodup hempty
  refine ⟨hempty, htnd, ?_⟩
  refine nodup_length_le_inB w h _ htnd ?_
  intro c hc
  rcases (htmem c).mp hc with hcq | ⟨_, hcg⟩
  · rw [hqeq] at hcq
    have := (hprops c hcq).2.2
    rw [mem_borderCells w h hw hh c] at this
    exact this.1
  · rcases bfs_new w h t 1 one_ne_zero (borderFuel w h) _ _ c hcg
      with hg | ⟨_, hin, _⟩
    · have := (hiff c).mp hg
      simp only [ne_eq, not_true_eq_false, false_or] at this
      rw [mem_borderCells w h hw hh c] at this
      exact this.1.1
    · exact hin

theorem foldl_congr_fun {α β : Type} (f g : α → β → α) (l : List β)
    (hfg : ∀ a b, f a b = g a b) : ∀ a, l.foldl f a = l.foldl g a := by
  induction l with
  | nil => intro a; rfl
  | cons b l ih => intro a; rw [List.foldl_cons, List.foldl_cons, hfg, ih]

/-- Each per-component fill terminates within `compFuel`, so extra fuel
does not change the scan. -/
theorem scanStep_fuel_stable (w h : Int) (intr : Cell → Bool) (k : Nat)
    (st : ScanState) (c : Cell) :
    scanStep w h intr (compFuel w h + k) st c =
      scanStep w h intr (compFuel w h) st c := by
  unfold scanStep
  by_cases hguard : intr c = true ∧ st.labeled c = 0
  · rw [if_pos hguard, if_pos hguard]
    have hempty : (bfsAux w h intr (st.label + 1) (compFuel w h)
        (updG st.labeled c (st.label + 1)) [c]).queue = [] := by
      refine bfs_empty w h intr (st.label + 1) (Nat.succ_ne_zero _) _ _ _ ?_
      have := unmarked_le w h (updG st.labeled c (st.label + 1))
      unfold compFuel
      simp only [List.length_cons, List.length_nil]
      omega
    rw [bfs_fuel_stable w h intr (st.label + 1) (compFuel w h) _ _ hempty k]
  · rw [if_neg hguard, if_neg hguard]

theorem scanRun_fuel_stable (w h : Int) (t : Cell → Bool) (k : Nat) :
    scanRun w h t (compFuel w h + k) = scanRun w h t (compFuel w h) := by
  unfold scanRun
  exact foldl_congr_fun _ _ (cellsRowMajor w h)
    (fun st c => scanStep_fuel_stable w h (interiorMask w h t) k st c) _

theorem borderRun_fuel_stable (w h : Int) (t : Cell → Bool) (hw : 0 < w)
    (hh : 0 < h) (k : Nat) :
    borderRun w h t (borderFuel w h + k) = borderRun w h t (borderFuel w h) := by
  unfold borderRun
  exact bfs_fuel_stable w h t 1 (borderFuel w h) _ _
    (borderRun_trace w h t hw hh).1 k

/-! ## The bounding-box fold of the component loop -/

theorem bboxFold_split (tr : List Cell) :
    ∀ (a b c d : Int),
      tr.foldl bboxStep (a, b, c, d) =
        (tr.foldl (fun m e => min m e.1) a,
          tr.foldl (fun m e => min m e.2) b,
          tr.foldl (fun m e => max m e.1) c,
          tr.foldl (fun m e => max m e.2) d) := by
  induction tr with
  | nil => intro a b c d; rfl
  | cons e tr ih =>
    intro a b c d
    rw [List.foldl_cons, List.foldl_cons, List.foldl_cons, List.foldl_cons,
      List.foldl_cons]
    exact ih (min a e.1) (min b e.2) (max c e.1) (max d e.2)

theorem foldl_min_le (key : Cell → Int) (tr : List Cell) :
    ∀ a, tr.foldl (fun m e => min m (key e)) a ≤ a ∧
      ∀ x ∈ tr, tr.foldl (fun m e => min m (key e)) a ≤ key x := by
  induction tr with
  | nil => intro a; exact ⟨le_refl a, by simp⟩
  | cons e tr ih =>
    intro a
    rw [List.foldl_cons]
    obtain ⟨h1, h2⟩ := ih (min a (key e))
    refine ⟨le_trans h1 (min_le_left a (key e)), ?_⟩
    intro x hx
    rcases List.mem_cons.mp hx with rfl | hx
    · exact le_trans h1 (min_le_right a (key x))
    · exact h2 x hx

theorem foldl_max_ge (key : Cell → Int) (tr : List Cell) :
    ∀ a, a ≤ tr.foldl (fun m e => max m (key e)) a ∧
      ∀ x ∈ tr, key x ≤ tr.foldl (fun m e => max m (key e)) a := by
  induction tr with
  | nil => intro a; exact ⟨le_refl a, by simp⟩
  | cons e tr ih =>
    intro a
    rw [List.foldl_cons]
    obtain ⟨h1, h2⟩ := ih (max a (key e))
    refine ⟨le_trans (le_max_left a (key e)) h1, ?_⟩
    intro x hx
    rcases List.mem_cons.mp hx with rfl | hx
    · exact le_trans (le_max_right a (key x)) h1
    · exact h2 x hx

theorem foldl_min_attained (key : Cell → Int) (tr : List Cell) :
    ∀ a, tr.foldl (fun m e => min m (key e)) a = a ∨
      ∃ x ∈ tr, tr.foldl (fun m e => min m (key e)) a = key x := by
  induction tr with
  | nil => intro a; exact Or.inl rfl
  | cons e tr ih =>
    intro a
    rw [List.foldl_cons]
    rcases ih (min a (key e)) with heq | ⟨x, hx, heq⟩
    · rcases min_cases a (key e) with ⟨hm, _⟩ | ⟨hm, _⟩
      · exact Or.inl (by rw [heq, hm])
      · exact Or.inr ⟨e, List.mem_cons_self e tr, by rw [heq, hm]⟩
    · exact Or.inr ⟨x, List.mem_cons_of_mem e hx, heq⟩

theorem foldl_max_attained (key : Cell → Int) (tr : List Cell) :
    ∀ a, tr.foldl (fun m e => max m (key e)) a = a ∨
      ∃ x ∈ tr, tr.foldl (fun m e => max m (key e)) a = key x := by
  induction tr with
  | nil => intro a; exact Or.inl rfl
  | cons e tr ih =>
    intro a
    rw [List.foldl_cons]
    rcases ih (max a (key e)) with heq | ⟨x, hx, heq⟩
    · rcases max_cases a (key e) with ⟨hm, _⟩ | ⟨hm, _⟩
      · exact Or.inl (by rw [heq, hm])
      · exact Or.inr ⟨e, List.mem_cons_self e tr, by rw [heq, hm]⟩
    · exact Or.inr ⟨x, List.mem_cons_of_mem e hx, heq⟩

/-- The component record built from a dequeue trace containing the seed:
its area is the number of dequeues, and `(min_x, min_y)` /
`(min_x + width - 1, min_y + height - 1)` are the tight bounds of the
traced pixels. -/
theorem mkComponent_spec (c0 : Cell) (tr : List Cell) (h0 : c0 ∈ tr) :
    (mkComponent c0 tr).area = tr.length ∧
    (∀ c ∈ tr,
      (mkComponent c0 tr).min_x ≤ c.1 ∧
      c.1 ≤ (mkComponent c0 tr).min_x + (mkComponent c0 tr).width - 1 ∧
      (mkComponent c0 tr).min_y ≤ c.2 ∧
      c.2 ≤ (mkComponent c0 tr).min_y + (mkComponent c0 tr).height - 1) ∧
    (∃ c ∈ tr, c.1 = (mkComponent c0 tr).min_x) ∧
    (∃ c ∈ tr, c.1 = (mkComponent c0 tr).min_x + (mkComponent c0 tr).width - 1) ∧
    (∃ c ∈ tr, c.2 = (mkComponent c0 tr).min_y) ∧
    (∃ c ∈ tr, c.2 = (mkComponent c0 tr).min_y + (mkComponent c0 tr).height - 1) := by
  have hsplit := bboxFold_split tr c0.1 c0.2 c0.1 c0.2
  have harea : (mkComponent c0 tr).area = tr.length := rfl
  have hminx : (mkComponent c0 tr).min_x =
      tr.foldl (fun m e => min m e.1) c0.1 := by
    unfold mkComponent
    rw [hsplit]
  have hminy : (mkComponent c0 tr).min_y =
      tr.foldl (fun m e => min m e.2) c0.2 := by
    unfold mkComponent
    rw [hsplit]
  have hmaxx : (mkComponent c0 tr).min_x + (mkComponent c0 tr).width - 1 =
      tr.foldl (fun m e => max m e.1) c0.1 := by
    unfold mkComponent
    rw [hsplit]
    simp only
    omega
  have hmaxy : (mkComponent c0 tr).min_y + (mkComponent c0 tr).height - 1 =
      tr.foldl (fun m e => max m e.2) c0.2 := by
    unfold mkComponent
    rw [hsplit]
    simp only
    omega
  refine ⟨harea, ?_, ?_, ?_, ?_, ?_⟩
  · intro c hc
    have b1 := (foldl_min_le (fun e => e.1) tr c0.1).2 c hc
    have b2 := (foldl_max_ge (fun e => e.1) tr c0.1).2 c hc
    have b3 := (foldl_min_le (fun e => e.2) tr c0.2).2 c hc
    have b4 := (foldl_max_ge (fun e => e.2) tr c0.2).2 c hc
    rw [← hminx] at b1
    rw [← hmaxx] at b2
    rw [← hminy] at b3
    rw [← hmaxy] at b4
    exact ⟨b1, b2, b3, b4⟩
  · rw [hminx]
    rcases foldl_min_attained (fun e => e.1) tr c0.1 with heq | ⟨x, hx, heq⟩
    · exact ⟨c0, h0, heq.symm⟩
    · exact ⟨x, hx, heq.symm⟩
  · rw [hmaxx]
    rcases foldl_max_attained (fun e => e.1) tr c0.1 with heq | ⟨x, hx, heq⟩
    · exact ⟨c0, h0, heq.symm⟩
    · exact ⟨x, hx, heq.symm⟩
  · rw [hminy]
    rcases foldl_min_attained (fun e => e.2) tr c0.2 with heq | ⟨x, hx, heq⟩
    · exact ⟨c0, h0, heq.symm⟩
    · exact ⟨x, hx, heq.symm⟩
  · rw [hmaxy]
    rcases foldl_max_attained (fun e => e.2) tr c0.2 with heq | ⟨x, hx, heq⟩
    · exact ⟨c0, h0, heq.symm⟩
    · exact ⟨x, hx, heq.symm⟩

/-! ## The per-component fill -/

/-- Specification of one component fill (source lines 51-67), started at
an unlabeled admissible seed whose connected region is entirely
unlabeled, over a grid closed under admissible adjacency: the fill
terminates, preserves old labels, gives the label `lab` exactly to the
pixels reachable from the seed, and dequeues exactly those pixels, each
once. -/
theorem fill_spec (w h : Int) (intr : Cell → Bool) (lab : Nat)
    (hlab : lab ≠ 0) (g : Grid) (c0 : Cell) (hin : inBP w h c0)
    (hint : intr c0 = true) (hg : g c0 = 0)
    (hfresh : ∀ d, g d ≠ lab)
    (hdisj : ∀ d, Reach w h intr c0 d → g d = 0)
    (hclosed : ∀ a, g a ≠ 0 → ∀ b, Adj a b → inBP w h b →
      intr b = true → g b ≠ 0)
    (fuel : Nat) (hfuel : 5 * (w.toNat * h.toNat) + 1 ≤ fuel) :
    (bfsAux w h intr lab fuel (updG g c0 lab) [c0]).queue = [] ∧
    (∀ d, g d ≠ 0 →
      (bfsAux w h intr lab fuel (updG g c0 lab) [c0]).grid d = g d) ∧
    (∀ d, (bfsAux w h intr lab fuel (updG g c0 lab) [c0]).grid d = lab ↔
      Reach w h intr c0 d) ∧
    (∀ d, (bfsAux w h intr lab fuel (updG g c0 lab) [c0]).grid d ≠ 0 ↔
      (g d ≠ 0 ∨ Reach w h intr c0 d)) ∧
    (bfsAux w h intr lab fuel (updG g c0 lab) [c0]).trace.Nodup ∧
    (∀ d, d ∈ (bfsAux w h intr lab fuel (updG g c0 lab) [c0]).trace ↔
      Reach w h intr c0 d) := by
  have hg1_c0 : updG g c0 lab c0 = lab := by simp [updG]
  have hg1_ne : ∀ d, d ≠ c0 → updG g c0 lab d = g d := by
    intro d hne; simp [updG, hne]
  have hg1_mark : ∀ d, updG g c0 lab d ≠ 0 ↔ (d = c0 ∨ g d ≠ 0) := by
    intro d
    by_cases he : d = c0
    · subst he
      rw [hg1_c0]
      exact ⟨fun _ => Or.inl rfl, fun _ => hlab⟩
    · rw [hg1_ne d he]
      exact ⟨fun hd => Or.inr hd, fun hd => hd.resolve_left he⟩
  have hempty : (bfsAux w h intr lab fuel (updG g c0 lab) [c0]).queue = [] := by
    refine bfs_empty w h intr lab hlab fuel _ _ ?_
    have := unmarked_le w h (updG g c0 lab)
    simp only [List.length_cons, List.length_nil]
    omega
  have hstable : ∀ d, g d ≠ 0 →
      (bfsAux w h intr lab fuel (updG g c0 lab) [c0]).grid d = g d := by
    intro d hd
    have hne : d ≠ c0 := fun he => (he ▸ hd) hg
    have : updG g c0 lab d ≠ 0 := by rw [hg1_ne d hne]; exact hd
    rw [bfs_grid_stable w h intr lab hlab fuel _ _ d this, hg1_ne d hne]
  have hclosed1 : ∀ a, updG g c0 lab a ≠ 0 → a ∈ [c0] ∨
      ∀ b, Adj a b → inBP w h b → intr b = true → updG g c0 lab b ≠ 0 := by
    intro a ha
    rcases (hg1_mark a).mp ha with rfl | ha'
    · exact Or.inl (List.mem_singleton.mpr rfl)
    · refine Or.inr ?_
      intro b hadj hb hok
      exact (hg1_mark b).mpr (Or.inr (hclosed a ha' b hadj hb hok))
  have hclosedF := bfs_closed w h intr lab hlab fuel _ _ hempty hclosed1
  have hc0F : (bfsAux w h intr lab fuel (updG g c0 lab) [c0]).grid c0 ≠ 0 := by
    rw [bfs_grid_stable w h intr lab hlab fuel _ _ c0 (by rw [hg1_c0]; exact hlab)]
    rw [hg1_c0]
    exact hlab
  have hreach_marked : ∀ d, Reach w h intr c0 d →
      (bfsAux w h intr lab fuel (updG g c0 lab) [c0]).grid d ≠ 0 := by
    intro d hr
    exact reach_marked w h intr _ hclosedF c0 d hr hc0F
  have hsound := bfs_sound w h intr lab hlab (Reach w h intr c0)
    (fun a b hra hadj hb hok => Reach.step c0 a b hra hadj hb hok)
    fuel (updG g c0 lab) [c0]
    (fun a ha => (List.mem_singleton.mp ha) ▸ Reach.refl c0 hin hint)
  have hlab_iff : ∀ d,
      (bfsAux w h intr lab fuel (updG g c0 lab) [c0]).grid d = lab ↔
      Reach w h intr c0 d := by
    intro d
    constructor
    · intro hd
      rcases hsound d (by rw [hd]; exact hlab) with hg1 | hr
      · rcases (hg1_mark d).mp hg1 with rfl | hgd
        · exact Reach.refl _ hin hint
        · exact absurd (by rw [← hstable d hgd]; exact hd) (hfresh d)
      · exact hr
    · intro hr
      have hmarked := hreach_marked d hr
      by_cases he : d = c0
      · subst he
        rw [bfs_grid_stable w h intr lab hlab fuel _ _ d
          (by rw [hg1_c0]; exact hlab), hg1_c0]
      · have hgd : g d = 0 := hdisj d hr
        have hg1d : updG g c0 lab d = 0 := by rw [hg1_ne d he]; exact hgd
        rcases bfs_new w h intr lab hlab fuel _ _ d hmarked with hg1 | ⟨hv, _, _⟩
        · exact absurd hg1d hg1
        · exact hv
  have hmark_iff : ∀ d,
      (bfsAux w h intr lab fuel (updG g c0 lab) [c0]).grid d ≠ 0 ↔
      (g d ≠ 0 ∨ Reach w h intr c0 d) := by
    intro d
    constructor
    · intro hd
      rcases hsound d hd with hg1 | hr
      · rcases (hg1_mark d).mp hg1 with rfl | hgd
        · exact Or.inr (Reach.refl _ hin hint)
        · exact Or.inl hgd
      · exact Or.inr hr
    · rintro (hd | hr)
      · rw [hstable d hd]; exact hd
      · exact hreach_marked d hr
  obtain ⟨htnd, htmem⟩ := bfs_trace w h intr lab hlab fuel (updG g c0 lab) [c0]
    (fun a ha => by
      rw [List.mem_singleton.mp ha, hg1_c0]
      exact hlab)
    (List.nodup_singleton c0) hempty
  refine ⟨hempty, hstable, hlab_iff, hmark_iff, htnd, ?_⟩
  intro d
  rw [htmem d]
  constructor
  · rintro (hd | ⟨hd0, hdg⟩)
    · exact (List.mem_singleton.mp hd) ▸ Reach.refl c0 hin hint
    · rcases (hmark_iff d).mp hdg with hgd | hr
      · exact absurd (by
          rw [hg1_ne d (fun he => by rw [he, hg1_c0] at hd0; exact hlab hd0)] at hd0
          exact hd0) hgd
      · exact hr
  · intro hr
    by_cases he : d = c0
    · exact Or.inl (List.mem_singleton.mpr he)
    · refine Or.inr ⟨by rw [hg1_ne d he]; exact hdisj d hr, hreach_marked d hr⟩

/-! ## The labeling scan invariant -/

theorem scanStep_pos (w h : Int) (intr : Cell → Bool) (fuel : Nat)
    (st : ScanState) (p : Cell)
    (hguard : intr p = true ∧ st.labeled p = 0) :
    scanStep w h intr fuel st p =
      ⟨(bfsAux w h intr (st.label + 1) fuel
          (updG st.labeled p (st.label + 1)) [p]).grid,
        st.label + 1,
        st.components ++ [mkComponent p
          (bfsAux w h intr (st.label + 1) fuel
            (updG st.labeled p (st.label + 1)) [p]).trace]⟩ := by
  unfold scanStep
  rw [if_pos hguard]

theorem scanStep_neg (w h : Int) (intr : Cell → Bool) (fuel : Nat)
    (st : ScanState) (p : Cell)
    (hguard : ¬(intr p = true ∧ st.labeled p = 0)) :
    scanStep w h intr fuel st p = st := by
  unfold scanStep
  rw [if_neg hguard]

theorem scanStep_inv (w h : Int) (intr : Cell → Bool) (fuel : Nat)
    (hfuel : 5 * (w.toNat * h.toNat) + 1 ≤ fuel)
    (P : List Cell) (st : ScanState) (hinv : ScanInv w h intr P st)
    (p : Cell) (hp : inBP w h p) :
    ScanInv w h intr (P ++ [p]) (scanStep w h intr fuel st p) := by
  by_cases hguard : intr p = true ∧ st.labeled p = 0
  · obtain ⟨hip, hgp⟩ := hguard
    have hfresh : ∀ d, st.labeled d ≠ st.label + 1 := by
      intro d
      by_cases hd : st.labeled d = 0
      · rw [hd]; omega
      · have := hinv.val_le d hd; omega
    have hdisj : ∀ d, Reach w h intr p d → st.labeled d = 0 := by
      intro d hr
      by_contra hd
      obtain ⟨q, hq, hr'⟩ := (hinv.mark_iff d).mp hd
      exact ((hinv.mark_iff p).mpr ⟨q, hq, Reach.trans hr' (reach_symm hr)⟩) hgp
    have hclosed : ∀ a, st.labeled a ≠ 0 → ∀ b, Adj a b → inBP w h b →
        intr b = true → st.labeled b ≠ 0 := by
      intro a ha b hadj hb hok
      obtain ⟨q, hq, hr⟩ := (hinv.mark_iff a).mp ha
      exact (hinv.mark_iff b).mpr ⟨q, hq, Reach.step q a b hr hadj hb hok⟩
    obtain ⟨hA, hB, hC, hF, hD, hE⟩ := fill_spec w h intr (st.label + 1)
      (Nat.succ_ne_zero _) st.labeled p hp hip hgp hfresh hdisj hclosed
      fuel hfuel
    rw [scanStep_pos w h intr fuel st p ⟨hip, hgp⟩]
    have hclass : ∀ c, (bfsAux w h intr (st.label + 1) fuel
        (updG st.labeled p (st.label + 1)) [p]).grid c ≠ 0 →
        (st.labeled c ≠ 0 ∧
          (bfsAux w h intr (st.label + 1) fuel
            (updG st.labeled p (st.label + 1)) [p]).grid c = st.labeled c ∧
          ¬Reach w h intr p c) ∨
        (Reach w h intr p c ∧
          (bfsAux w h intr (st.label + 1) fuel
            (updG st.labeled p (st.label + 1)) [p]).grid c = st.label + 1 ∧
          st.labeled c = 0) := by
      intro c hc
      rcases (hF c).mp hc with hcg | hcr
      · exact Or.inl ⟨hcg, hB c hcg, fun hrc => hcg (hdisj c hrc)⟩
      · exact Or.inr ⟨hcr, (hC c).mpr hcr, hdisj c hcr⟩
    refine ⟨?_, ?_, ?_, ?_, ?_⟩
    · -- mark_iff
      intro c
      rw [hF c]
      constructor
      · rintro (hc | hc)
        · obtain ⟨q, hq, hr⟩ := (hinv.mark_iff c).mp hc
          exact ⟨q, List.mem_append.mpr (Or.inl hq), hr⟩
        · exact ⟨p, List.mem_append.mpr (Or.inr (List.mem_singleton.mpr rfl)),
            hc⟩
      · rintro ⟨q, hq, hrq⟩
        rcases List.mem_append.mp hq with hq | hq
        · exact Or.inl ((hinv.mark_iff c).mpr ⟨q, hq, hrq⟩)
        · exact Or.inr ((List.mem_singleton.mp hq) ▸ hrq)
    · -- val_le
      dsimp only
      intro c hc
      rcases hclass c hc with ⟨hc1, hc2, _⟩ | ⟨_, hc2, _⟩
      · rw [hc2]
        exact le_trans (hinv.val_le c hc1) (Nat.le_succ _)
      · rw [hc2]
    · -- same_iff
      dsimp only
      intro c d hc hd
      rcases hclass c hc with ⟨hc1, hc2, hc3⟩ | ⟨hc1, hc2, hc3⟩ <;>
        rcases hclass d hd with ⟨hd1, hd2, hd3⟩ | ⟨hd1, hd2, hd3⟩
      · rw [hc2, hd2]
        exact hinv.same_iff c d hc1 hd1
      · rw [hc2, hd2]
        constructor
        · intro he
          exact absurd he (by have := hinv.val_le c hc1; omega)
        · intro hrcd
          exact absurd (Reach.trans hd1 (reach_symm hrcd)) hc3
      · rw [hc2, hd2]
        constructor
        · intro he
          exact absurd he.symm (by have := hinv.val_le d hd1; omega)
        · intro hrcd
          exact absurd (Reach.trans hc1 hrcd) hd3
      · rw [hc2, hd2]
        exact ⟨fun _ => Reach.trans (reach_symm hc1) hd1, fun _ => rfl⟩
    · -- len_eq
      dsimp only
      rw [List.length_append, List.length_singleton, hinv.len_eq]
    · -- comp_spec
      dsimp only
      intro i hi
      rw [List.length_append, List.length_singleton] at hi
      by_cases hilt : i < st.components.length
      · have hget : (st.components ++ [mkComponent p
            (bfsAux w h intr (st.label + 1) fuel
              (updG st.labeled p (st.label + 1)) [p]).trace]).get
            ⟨i, by rw [List.length_append, List.length_singleton]; omega⟩ =
            st.components.get ⟨i, hilt⟩ := by
          rw [List.get_eq_getElem, List.get_eq_getElem,
            List.getElem_append_left hilt]
        rw [hget]
        have hlti : i + 1 ≤ st.label := by
          rw [hinv.len_eq] at hilt; omega
        have hset : ∀ c, (bfsAux w h intr (st.label + 1) fuel
            (updG st.labeled p (st.label + 1)) [p]).grid c = i + 1 ↔
            st.labeled c = i + 1 := by
          intro c
          constructor
          · intro hrc
            rcases hclass c (by rw [hrc]; omega) with ⟨_, hc2, _⟩ | ⟨_, hc2, _⟩
            · rw [← hc2]; exact hrc
            · rw [hc2] at hrc; omega
          · intro hgc
            rw [hB c (by rw [hgc]; omega)]
            exact hgc
        obtain ⟨harea, hbounds, hw1, hw2, hw3, hw4⟩ := hinv.comp_spec i hilt
        have hfilter : ((inBFin w h).filter fun c =>
            (bfsAux w h intr (st.label + 1) fuel
              (updG st.labeled p (st.label + 1)) [p]).grid c = i + 1) =
            ((inBFin w h).filter fun c => st.labeled c = i + 1) :=
          Finset.filter_congr (fun c _ => by rw [hset c])
        refine ⟨by rw [hfilter]; exact harea, ?_, ?_, ?_, ?_, ?_⟩
        · intro c hc
          exact hbounds c ((hset c).mp hc)
        · obtain ⟨c, hc1, hc2⟩ := hw1
          exact ⟨c, (hset c).mpr hc1, hc2⟩
        · obtain ⟨c, hc1, hc2⟩ := hw2
          exact ⟨c, (hset c).mpr hc1, hc2⟩
        · obtain ⟨c, hc1, hc2⟩ := hw3
          exact ⟨c, (hset c).mpr hc1, hc2⟩
        · obtain ⟨c, hc1, hc2⟩ := hw4
          exact ⟨c, (hset c).mpr hc1, hc2⟩
      · have hieq : i = st.components.length := by omega
        have hget : (st.components ++ [mkComponent p
            (bfsAux w h intr (st.label + 1) fuel
              (updG st.labeled p (st.label + 1)) [p]).trace]).get
            ⟨i, by rw [List.length_append, List.length_singleton]; omega⟩ =
            mkComponent p (bfsAux w h intr (st.label + 1) fuel
              (updG st.labeled p (st.label + 1)) [p]).trace := by
          rw [List.get_eq_getElem, List.getElem_concat_length _ _ _ hieq]
        rw [hget]
        have hi1 : i + 1 = st.label + 1 := by
          rw [hieq, hinv.len_eq]
        rw [hi1]
        have hptr : p ∈ (bfsAux w h intr (st.label + 1) fuel
            (updG st.labeled p (st.label + 1)) [p]).trace :=
          (hE p).mpr (Reach.refl p hp hip)
        obtain ⟨harea, hbounds, hw1, hw2, hw3, hw4⟩ :=
          mkComponent_spec p _ hptr
        have hfilter : ((inBFin w h).filter fun c =>
            (bfsAux w h intr (st.label + 1) fuel
              (updG st.labeled p (st.label + 1)) [p]).grid c = st.label + 1) =
            (bfsAux w h intr (st.label + 1) fuel
              (updG st.labeled p (st.label + 1)) [p]).trace.toFinset := by
          ext a
          simp only [Finset.mem_filter, List.mem_toFinset, mem_inBFin]
          constructor
          · rintro ⟨_, ha⟩
            exact (hE a).mpr ((hC a).mp ha)
          · intro ha
            have hra := (hE a).mp ha
            exact ⟨(Reach.dst_mem hra).1, (hC a).mpr hra⟩
        refine ⟨?_, ?_, ?_, ?_, ?_, ?_⟩
        · rw [hfilter, List.toFinset_card_of_nodup hD]
          exact harea
        · intro c hc
          exact hbounds c ((hE c).mpr ((hC c).mp hc))
        · obtain ⟨c, hc1, hc2⟩ := hw1
          exact ⟨c, (hC c).mpr ((hE c).mp hc1), hc2⟩
        · obtain ⟨c, hc1, hc2⟩ := hw2
          exact ⟨c, (hC c).mpr ((hE c).mp hc1), hc2⟩
        · obtain ⟨c, hc1, hc2⟩ := hw3
          exact ⟨c, (hC c).mpr ((hE c).mp hc1), hc2⟩
        · obtain ⟨c, hc1, hc2⟩ := hw4
          exact ⟨c, (hC c).mpr ((hE c).mp hc1), hc2⟩
  · rw [scanStep_neg w h intr fuel st p hguard]
    refine ⟨?_, hinv.val_le, hinv.same_iff, hinv.len_eq, hinv.comp_spec⟩
    intro c
    rw [hinv.mark_iff c]
    constructor
    · rintro ⟨q, hq, hr⟩
      exact ⟨q, List.mem_append.mpr (Or.inl hq), hr⟩
    · rintro ⟨q, hq, hr⟩
      rcases List.mem_append.mp hq with hq | hq
      · exact ⟨q, hq, hr⟩
      · have hqp : q = p := List.mem_singleton.mp hq
        subst hqp
        have hqint : intr q = true := (Reach.src_mem hr).2
        have hqlab : st.labeled q ≠ 0 := by
          intro hql
          exact hguard ⟨hqint, hql⟩
        obtain ⟨q', hq', hr'⟩ := (hinv.mark_iff q).mp hqlab
        exact ⟨q', hq', Reach.trans hr' hr⟩

theorem scanFold_inv (w h : Int) (intr : Cell → Bool) (fuel : Nat)
    (hfuel : 5 * (w.toNat * h.toNat) + 1 ≤ fuel) :
    ∀ (P Q : List Cell) (st : ScanState),
      ScanInv w h intr Q st → (∀ c ∈ P, inBP w h c) →
      ScanInv w h intr (Q ++ P) (P.foldl (scanStep w h intr fuel) st) := by
  intro P
  induction P with
  | nil =>
    intro Q st hinv _
    simpa using hinv
  | cons p P ih =>
    intro Q st hinv hP
    rw [List.foldl_cons]
    have h1 := scanStep_inv w h intr fuel hfuel Q st hinv p
      (hP p (List.mem_cons_self p P))
    have h2 := ih (Q ++ [p]) _ h1 (fun c hc => hP c (List.mem_cons_of_mem p hc))
    rw [List.append_assoc, List.singleton_append] at h2
    exact h2

theorem scanInv_init (w h : Int) (intr : Cell → Bool) :
    ScanInv w h intr [] ⟨fun _ => 0, 0, []⟩ := by
  refine ⟨?_, ?_, ?_, rfl, ?_⟩
  · intro c
    simp
  · intro c hc
    exact absurd rfl hc
  · intro c d hc
    exact absurd rfl hc
  · intro i hi
    simp at hi

/-- The full-scan invariant instantiated at the script's analysis. -/
theorem analysis_inv (w h : Int) (t : Cell → Bool) :
    ScanInv w h (interiorMask w h t) (cellsRowMajor w h) (analysis w h t) := by
  have h1 := scanFold_inv w h (interiorMask w h t) (compFuel w h)
    (le_refl _) (cellsRowMajor w h) [] ⟨fun _ => 0, 0, []⟩
    (scanInv_init w h _) (fun c hc => (cellsRowMajor_mem w h c).mp hc)
  rw [List.nil_append] at h1
  exact h1

/-- A pixel is labeled iff it is in bounds and interior. -/
theorem analysis_labeled_iff (w h : Int) (t : Cell → Bool) (c : Cell) :
    (analysis w h t).labeled c ≠ 0 ↔
      (inBP w h c ∧ interiorMask w h t c = true) := by
  rw [(analysis_inv w h t).mark_iff c]
  constructor
  · rintro ⟨p, _, hr⟩
    exact ⟨(Reach.dst_mem hr).1, (Reach.dst_mem hr).2⟩
  · rintro ⟨hin, hint⟩
    exact ⟨c, (cellsRowMajor_mem w h c).mpr hin, Reach.refl c hin hint⟩

/-! ## Congruence: the analysis reads only in-bounds pixels -/

theorem seedFold_congr (t1 t2 : Cell → Bool) :
    ∀ (L : List Cell), (∀ c ∈ L, t1 c = t2 c) →
      ∀ st, L.foldl (seedCell t1) st = L.foldl (seedCell t2) st := by
  intro L
  induction L with
  | nil => intro _ st; rfl
  | cons c L ih =>
    intro hL st
    rw [List.foldl_cons, List.foldl_cons]
    have hc : seedCell t1 st c = seedCell t2 st c := by
      unfold seedCell
      rw [hL c (List.mem_cons_self c L)]
    rw [hc, ih (fun d hd => hL d (List.mem_cons_of_mem c hd))]

theorem foldl_congr_mem {α β : Type} (f g : α → β → α) :
    ∀ (l : List β), (∀ a b, b ∈ l → f a b = g a b) →
      ∀ a, l.foldl f a = l.foldl g a := by
  intro l
  induction l with
  | nil => intro _ a; rfl
  | cons b l ih =>
    intro hl a
    rw [List.foldl_cons, List.foldl_cons, hl a b (List.mem_cons_self b l),
      ih (fun a' b' hb' => hl a' b' (List.mem_cons_of_mem b hb'))]

theorem scanStep_congr (w h : Int) (i1 i2 : Cell → Bool) (fuel : Nat)
    (hag : ∀ d, inBP w h d → i1 d = i2 d) (st : ScanState) (p : Cell)
    (hp : inBP w h p) :
    scanStep w h i1 fuel st p = scanStep w h i2 fuel st p := by
  unfold scanStep
  rw [hag p hp, bfs_congr w h i1 i2 (st.label + 1) hag fuel
    (updG st.labeled p (st.label + 1)) [p]]

theorem visitedGrid_congr (w h : Int) (t1 t2 : Cell → Bool) (hw : 0 < w)
    (hh : 0 < h) (hag : ∀ c, inBP w h c → t1 c = t2 c) :
    visitedGrid w h t1 = visitedGrid w h t2 := by
  have hseed : seedBorder w h t1 = seedBorder w h t2 := by
    unfold seedBorder
    refine seedFold_congr t1 t2 (borderCells w h) ?_ _
    intro c hc
    exact hag c ((mem_borderCells w h hw hh c).mp hc).1
  unfold visitedGrid borderRun
  rw [hseed, bfs_congr w h t1 t2 1 hag (borderFuel w h)
    (seedBorder w h t2).1 (seedBorder w h t2).2]

theorem analysis_congr (w h : Int) (t1 t2 : Cell → Bool) (hw : 0 < w)
    (hh : 0 < h) (hag : ∀ c, inBP w h c → t1 c = t2 c) :
    analysis w h t1 = analysis w h t2 := by
  have hvg := visitedGrid_congr w h t1 t2 hw hh hag
  have hint : ∀ d, inBP w h d →
      interiorMask w h t1 d = interiorMask w h t2 d := by
    intro d hd
    unfold interiorMask
    rw [hag d hd, hvg]
  unfold analysis scanRun
  exact foldl_congr_mem _ _ (cellsRowMajor w h)
    (fun st p hp => scanStep_congr w h _ _ (compFuel w h) hint st p
      ((cellsRowMajor_mem w h p).mp hp)) _

/-! ## Sorting facts for the reporter -/

theorem areaLe_trans : ∀ a b c : Component,
    (fun a b : Component => decide (b.area ≤ a.area)) a b = true →
    (fun a b : Component => decide (b.area ≤ a.area)) b c = true →
    (fun a b : Component => decide (b.area ≤ a.area)) a c = true := by
  intro a b c hab hbc
  simp only [decide_eq_true_eq] at hab hbc ⊢
  omega

theorem areaLe_total : ∀ a b : Component,
    ((fun a b : Component => decide (b.area ≤ a.area)) a b ||
      (fun a b : Component => decide (b.area ≤ a.area)) b a) = true := by
  intro a b
  simp only [Bool.or_eq_true, decide_eq_true_eq]
  omega

theorem sortComponents_sorted (cs : List Component) :
    (sortComponents cs).Pairwise fun a b => b.area ≤ a.area := by
  have := List.sorted_mergeSort areaLe_trans areaLe_total cs
  exact this.imp (fun hx => of_decide_eq_true hx)

theorem sortComponents_perm (cs : List Component) :
    (sortComponents cs).Perm cs :=
  List.mergeSort_perm cs _

theorem sortComponents_length (cs : List Component) :
    (sortComponents cs).length = cs.length :=
  (sortComponents_perm cs).length_eq

theorem sortComponents_filter_area (cs : List Component) (a : Nat) :
    (sortComponents cs).filter (fun c => decide (c.area = a)) =
      cs.filter (fun c => decide (c.area = a)) := by
  have hpair : (cs.filter fun c => decide (c.area = a)).Pairwise
      (fun x y : Component => (fun a b : Component =>
        decide (b.area ≤ a.area)) x y = true) := by
    refine List.pairwise_of_forall_mem_list ?_
    intro x hx y hy
    have hxa : x.area = a := by simpa using List.of_mem_filter hx
    have hya : y.area = a := by simpa using List.of_mem_filter hy
    show decide (y.area ≤ x.area) = true
    rw [decide_eq_true_eq]
    omega
  have hsub : (cs.filter fun c => decide (c.area = a)).Sublist
      (sortComponents cs) :=
    List.mergeSort_stable areaLe_trans areaLe_total hpair
      (List.filter_sublist cs)
  have hsub2 : (cs.filter fun c => decide (c.area = a)).Sublist
      ((sortComponents cs).filter fun c => decide (c.area = a)) := by
    have h1 := List.Sublist.filter (fun c : Component => decide (c.area = a))
      hsub
    have h2 : ((cs.filter fun c => decide (c.area = a)).filter
        fun c => decide (c.area = a)) =
        cs.filter fun c => decide (c.area = a) := by
      rw [List.filter_filter]
      refine List.filter_congr ?_
      intro x _
      rw [Bool.and_self]
    rw [h2] at h1
    exact h1
  have hlen : ((sortComponents cs).filter
      (fun c => decide (c.area = a))).length =
      (cs.filter fun c => decide (c.area = a)).length :=
    (List.Perm.filter _ (sortComponents_perm cs)).length_eq
  exact (List.Sublist.eq_of_length hsub2 hlen.symm).symm

/-! ## The claims -/

/-- C1: after the border flood-fill completes, a pixel of the w×h
transparency mask is visited iff it is transparent and there is a path of
4-connected transparent pixels from it to some border pixel that is
itself transparent. -/
theorem c1_border_fill_visits_iff_border_reachable (w h : Int)
    (t : Cell → Bool) (hw : 0 < w) (hh : 0 < h) (c : Cell)
    (hc : inBP w h c) :
    visitedGrid w h t c ≠ 0 ↔
      (t c = true ∧ ∃ b, borderP w h b ∧ t b = true ∧ Reach w h t c b) := by
  rw [visitedGrid_iff w h t hw hh c]
  constructor
  · rintro ⟨htc, b, hb, htb, hr⟩
    exact ⟨htc, b, hb, htb, reach_symm hr⟩
  · rintro ⟨htc, b, hb, htb, hr⟩
    exact ⟨htc, b, hb, htb, reach_symm hr⟩

/-- C2: after the labeling scan, every pixel is in exactly one of the
classes opaque / exterior-transparent / interior with a single positive
label; nonzero label cells are exactly the interior mask, labels lie in
`1..count`, and two interior pixels share a label iff they lie in the
same maximal 4-connected interior region. -/
theorem c2_labels_partition_interior (w h : Int) (t : Cell → Bool)
    (hw : 0 < w) (hh : 0 < h) :
    (∀ c, inBP w h c →
      ((analysis w h t).labeled c ≠ 0 ↔ interiorMask w h t c = true)) ∧
    (∀ c, inBP w h c → interiorMask w h t c = true →
      1 ≤ (analysis w h t).labeled c ∧
      (analysis w h t).labeled c ≤ (analysis w h t).components.length) ∧
    (∀ c d, inBP w h c → inBP w h d → interiorMask w h t c = true →
      interiorMask w h t d = true →
      ((analysis w h t).labeled c = (analysis w h t).labeled d ↔
        Reach w h (interiorMask w h t) c d)) ∧
    (∀ c, inBP w h c →
      ((t c = false ∧ visitedGrid w h t c = 0 ∧
          (analysis w h t).labeled c = 0) ∨
        (t c = true ∧ visitedGrid w h t c ≠ 0 ∧
          (analysis w h t).labeled c = 0) ∨
        (t c = true ∧ visitedGrid w h t c = 0 ∧
          (analysis w h t).labeled c ≠ 0))) := by
  have hlab_iff : ∀ c, inBP w h c →
      ((analysis w h t).labeled c ≠ 0 ↔ interiorMask w h t c = true) := by
    intro c hc
    rw [analysis_labeled_iff w h t c]
    exact ⟨fun hx => hx.2, fun hx => ⟨hc, hx⟩⟩
  have hvt : ∀ c, visitedGrid w h t c ≠ 0 → t c = true := by
    intro c hc
    exact ((visitedGrid_iff w h t hw hh c).mp hc).1
  refine ⟨hlab_iff, ?_, ?_, ?_⟩
  · intro c hc hint
    have hne := (hlab_iff c hc).mpr hint
    refine ⟨by omega, ?_⟩
    rw [(analysis_inv w h t).len_eq]
    exact (analysis_inv w h t).val_le c hne
  · intro c d hc hd hic hid
    exact (analysis_inv w h t).same_iff c d
      ((hlab_iff c hc).mpr hic) ((hlab_iff d hd).mpr hid)
  · intro c hc
    by_cases htc : t c = true
    · by_cases hvc : visitedGrid w h t c = 0
      · refine Or.inr (Or.inr ⟨htc, hvc, ?_⟩)
        refine (hlab_iff c hc).mpr ?_
        unfold interiorMask
        rw [htc, hvc]
        rfl
      · refine Or.inr (Or.inl ⟨htc, hvc, ?_⟩)
        by_contra hl
        have := (hlab_iff c hc).mp hl
        unfold interiorMask at this
        rw [htc] at this
        simp only [Bool.true_and, decide_eq_true_eq] at this
        exact hvc this
    · have htc' : t c = false := by
        cases hq : t c
        · rfl
        · exact absurd hq htc
      refine Or.inl ⟨htc', ?_, ?_⟩
      · by_contra hvc
        rw [hvt c hvc] at htc'
        cases htc'
      · by_contra hl
        have := (hlab_iff c hc).mp hl
        unfold interiorMask at this
        rw [htc'] at this
        cases this

/-- C3: every transparent border pixel is classified exterior (visited),
is not interior, and carries no label; in particular the 1×1 grid with a
single transparent pixel produces no interior component. -/
theorem c3_transparent_border_is_exterior (w h : Int) (t : Cell → Bool)
    (hw : 0 < w) (hh : 0 < h) :
    (∀ c, borderP w h c → t c = true →
      visitedGrid w h t c ≠ 0 ∧ interiorMask w h t c = false ∧
      (analysis w h t).labeled c = 0) ∧
    (analysis 1 1 (fun _ => true)).components = [] := by
  constructor
  · intro c hb htc
    have hv : visitedGrid w h t c ≠ 0 :=
      (visitedGrid_iff w h t hw hh c).mpr
        ⟨htc, c, hb, htc, Reach.refl c hb.1 htc⟩
    have hint : interiorMask w h t c = false := by
      unfold interiorMask
      rw [htc, Bool.true_and, decide_eq_false_iff_not]
      exact hv
    refine ⟨hv, hint, ?_⟩
    by_contra hl
    have := (analysis_labeled_iff w h t c).mp hl
    rw [hint] at this
    cases this.2
  · decide

/-- C4: each component record's area counts exactly the cells carrying
its label, its bounding box is tight around them, and
`1 ≤ area ≤ width * height`. -/
theorem c4_component_area_and_bbox (w h : Int) (t : Cell → Bool)
    (hw : 0 < w) (hh : 0 < h) (i : Nat)
    (hi : i < (analysis w h t).components.length) :
    ((analysis w h t).components.get ⟨i, hi⟩).area =
      ((inBFin w h).filter fun c => (analysis w h t).labeled c = i + 1).card ∧
    (∀ c, (analysis w h t).labeled c = i + 1 →
      ((analysis w h t).components.get ⟨i, hi⟩).min_x ≤ c.1 ∧
      c.1 ≤ ((analysis w h t).components.get ⟨i, hi⟩).min_x +
        ((analysis w h t).components.get ⟨i, hi⟩).width - 1 ∧
      ((analysis w h t).components.get ⟨i, hi⟩).min_y ≤ c.2 ∧
      c.2 ≤ ((analysis w h t).components.get ⟨i, hi⟩).min_y +
        ((analysis w h t).components.get ⟨i, hi⟩).height - 1) ∧
    (∃ c, (analysis w h t).labeled c = i + 1 ∧
      c.1 = ((analysis w h t).components.get ⟨i, hi⟩).min_x) ∧
    (∃ c, (analysis w h t).labeled c = i + 1 ∧
      c.1 = ((analysis w h t).components.get ⟨i, hi⟩).min_x +
        ((analysis w h t).components.get ⟨i, hi⟩).width - 1) ∧
    (∃ c, (analysis w h t).labeled c = i + 1 ∧
      c.2 = ((analysis w h t).components.get ⟨i, hi⟩).min_y) ∧
    (∃ c, (analysis w h t).labeled c = i + 1 ∧
      c.2 = ((analysis w h t).components.get ⟨i, hi⟩).min_y +
        ((analysis w h t).components.get ⟨i, hi⟩).height - 1) ∧
    1 ≤ ((analysis w h t).components.get ⟨i, hi⟩).area ∧
    (((analysis w h t).components.get ⟨i, hi⟩).area : Int) ≤
      ((analysis w h t).components.get ⟨i, hi⟩).width *
      ((analysis w h t).components.get ⟨i, hi⟩).height := by
  obtain ⟨harea, hbounds, hw1, hw2, hw3, hw4⟩ :=
    (analysis_inv w h t).comp_spec i hi
  obtain ⟨c1, hc1, hc1x⟩ := hw1
  have hc1in : inBP w h c1 :=
    ((analysis_labeled_iff w h t c1).mp (by rw [hc1]; omega)).1
  obtain ⟨c2, hc2, hc2x⟩ := hw2
  refine ⟨harea, hbounds, ⟨c1, hc1, hc1x⟩, ⟨c2, hc2, hc2x⟩, hw3, hw4, ?_, ?_⟩
  · rw [harea]
    refine Finset.card_pos.mpr ⟨c1, ?_⟩
    rw [Finset.mem_filter, mem_inBFin]
    exact ⟨hc1in, hc1⟩
  · have hwidth : 1 ≤ ((analysis w h t).components.get ⟨i, hi⟩).width := by
      obtain ⟨b1, b2, b3, b4⟩ := hbounds c1 hc1
      omega
    have hheight : 1 ≤ ((analysis w h t).components.get ⟨i, hi⟩).height := by
      obtain ⟨b1, b2, b3, b4⟩ := hbounds c1 hc1
      omega
    have hsub : ((inBFin w h).filter fun c =>
        (analysis w h t).labeled c = i + 1) ⊆
        (Finset.Icc ((analysis w h t).components.get ⟨i, hi⟩).min_x
          (((analysis w h t).components.get ⟨i, hi⟩).min_x +
            ((analysis w h t).components.get ⟨i, hi⟩).width - 1)) ×ˢ
        (Finset.Icc ((analysis w h t).components.get ⟨i, hi⟩).min_y
          (((analysis w h t).components.get ⟨i, hi⟩).min_y +
            ((analysis w h t).components.get ⟨i, hi⟩).height - 1)) := by
      intro c hcmem
      rw [Finset.mem_filter] at hcmem
      obtain ⟨b1, b2, b3, b4⟩ := hbounds c hcmem.2
      rw [Finset.mem_product, Finset.mem_Icc, Finset.mem_Icc]
      exact ⟨⟨b1, b2⟩, ⟨b3, b4⟩⟩
    have hcard := Finset.card_le_card hsub
    rw [Finset.card_product, Int.card_Icc, Int.card_Icc] at hcard
    rw [harea]
    have h1 : (((analysis w h t).components.get ⟨i, hi⟩).min_x +
        ((analysis w h t).components.get ⟨i, hi⟩).width - 1 + 1 -
        ((analysis w h t).components.get ⟨i, hi⟩).min_x).toNat =
        ((analysis w h t).components.get ⟨i, hi⟩).width.toNat := by omega
    have h2 : (((analysis w h t).components.get ⟨i, hi⟩).min_y +
        ((analysis w h t).components.get ⟨i, hi⟩).height - 1 + 1 -
        ((analysis w h t).components.get ⟨i, hi⟩).min_y).toNat =
        ((analysis w h t).components.get ⟨i, hi⟩).height.toNat := by omega
    rw [h1, h2] at hcard
    have hA : ((((inBFin w h).filter fun c =>
        (analysis w h t).labeled c = i + 1).card : Nat) : Int) ≤
        ((((analysis w h t).components.get ⟨i, hi⟩).width.toNat *
          ((analysis w h t).components.get ⟨i, hi⟩).height.toNat : Nat) : Int) :=
      Nat.cast_le.mpr hcard
    rw [Nat.cast_mul, Int.toNat_of_nonneg (by omega),
      Int.toNat_of_nonneg (by omega)] at hA
    exact hA

/-- C5: the reporter's sorted list is non-increasing in area, the report
has `min 5 count` entries, and entry `i` carries the 1-based rank `i + 1`
together with area, bounding-box origin, width and height of the `i`-th
sorted component. -/
theorem c5_report_sorted_and_limited (cs : List Component) :
    ((sortComponents cs).Pairwise fun a b => b.area ≤ a.area) ∧
    (reportEntries cs 5).length = min 5 cs.length ∧
    (∀ i : Nat, (reportEntries cs 5)[i]? =
      (((sortComponents cs).take 5)[i]?).map fun comp =>
        ⟨i + 1, comp.area, comp.min_x, comp.min_y, comp.width,
          comp.height⟩) := by
  have hlen : (reportEntries cs 5).length =
      ((sortComponents cs).take 5).length := by
    unfold reportEntries
    rw [List.length_map, List.enum_length]
  refine ⟨sortComponents_sorted cs, ?_, ?_⟩
  · unfold reportEntries
    rw [List.length_map, List.enum_length, List.length_take,
      sortComponents_length]
  · intro i
    by_cases hlt : i < (reportEntries cs 5).length
    · have hlt2 : i < ((sortComponents cs).take 5).length := by omega
      rw [List.getElem?_eq_getElem hlt, List.getElem?_eq_getElem hlt2]
      unfold reportEntries
      rw [List.getElem_map, List.getElem_enum, List.getElem_take]
      rfl
    · rw [List.getElem?_eq_none (by omega), List.getElem?_eq_none (by omega)]
      rfl

/-- C6: the spec expects `w == 0 or h == 0` to be a benign degenerate
case, but the seeding loops index `transparent[0, x]` (resp.
`transparent[y, 0]`) even when the indexed axis has size 0, which raises
`IndexError`; only `w == 0` with `h ≤ 2` avoids every such read.  The
bounds-checked model of the seeding loops returns `none` (IndexError)
on a 1×0 and on a 0×3 grid, and succeeds with no seeding on the 0×0
grid. -/
theorem c6_degenerate_grids_raise :
    seedBorderChecked 1 0 (fun _ => true) = none ∧
    seedBorderChecked 0 3 (fun _ => true) = none ∧
    seedBorderChecked 0 0 (fun _ => true) =
      some ((fun _ => 0 : Grid), ([] : List Cell)) :=
  ⟨rfl, rfl, rfl⟩

/-- C7: the final visited grid does not depend on the order (or
multiplicity) in which the border pixels are seeded, nor on the BFS
schedule those seeds induce: any candidate list with exactly the border
pixels as members, run with any sufficient fuel, produces the same grid
as the script's double-seeding order — in particular, on `w == 1` or
`h == 1` grids the duplicate seeding is idempotent. -/
theorem c7_visited_independent_of_seeding (w h : Int) (t : Cell → Bool)
    (hw : 0 < w) (hh : 0 < h) (L : List Cell)
    (hL : ∀ c, c ∈ L ↔ borderP w h c) (fuel : Nat)
    (hfuel : 5 * (w.toNat * h.toNat) + L.length ≤ fuel) (c : Cell) :
    (seedRun w h t L fuel).grid c = visitedGrid w h t c := by
  have h1 := seedRun_visited_iff w h t L hL fuel hfuel c
  have h2 := visitedGrid_iff w h t hw hh c
  have hvb : visitedGrid w h t =
      (seedRun w h t (borderCells w h) (borderFuel w h)).grid := by
    unfold visitedGrid
    rw [borderRun_eq_seedRun]
  by_cases hv : (seedRun w h t L fuel).grid c ≠ 0
  · have hv2 : visitedGrid w h t c ≠ 0 := h2.mpr (h1.mp hv)
    rw [seedRun_val_one w h t L fuel c hv, hvb]
    rw [hvb] at hv2
    rw [seedRun_val_one w h t _ _ c hv2]
  · have hv2 : ¬visitedGrid w h t c ≠ 0 := fun hx => hv (h1.mpr (h2.mp hx))
    rw [not_ne_iff] at hv hv2
    rw [hv, hv2]

/-- C8: the analysis is a pure function of the pixel grid (threshold and
limit included): two alpha grids agreeing on all in-bounds pixels give
the same analysis state and the same report, so running it twice on the
same grid yields identical component lists. -/
theorem c8_analysis_deterministic (w h : Int) (threshold : Nat)
    (a1 a2 : Cell → Nat) (hw : 0 < w) (hh : 0 < h)
    (hag : ∀ c, inBP w h c → a1 c = a2 c) :
    detect w h a1 threshold = detect w h a2 threshold ∧
    reportEntries (detect w h a1 threshold).components 5 =
      reportEntries (detect w h a2 threshold).components 5 := by
  have hdet : detect w h a1 threshold = detect w h a2 threshold := by
    unfold detect
    refine analysis_congr w h _ _ hw hh ?_
    intro c hc
    unfold transparentMask
    rw [hag c hc]
  exact ⟨hdet, by rw [hdet]⟩

/-- C9: both flood fills terminate — the border BFS queue empties within
the supplied fuel, no pixel is dequeued twice, there are at most `w * h`
dequeues, extra fuel changes nothing in either pass, and each component's
area (its pass's dequeue count) is at most `w * h`. -/
theorem c9_both_fills_terminate (w h : Int) (t : Cell → Bool)
    (hw : 0 < w) (hh : 0 < h) :
    (borderRun w h t (borderFuel w h)).queue = [] ∧
    (borderRun w h t (borderFuel w h)).trace.Nodup ∧
    (borderRun w h t (borderFuel w h)).trace.length ≤ w.toNat * h.toNat ∧
    (∀ k, borderRun w h t (borderFuel w h + k) =
      borderRun w h t (borderFuel w h)) ∧
    (∀ k, scanRun w h t (compFuel w h + k) = scanRun w h t (compFuel w h)) ∧
    (∀ comp ∈ (analysis w h t).components,
      comp.area ≤ w.toNat * h.toNat) := by
  obtain ⟨hq, hnd, hlen⟩ := borderRun_trace w h t hw hh
  refine ⟨hq, hnd, hlen, borderRun_fuel_stable w h t hw hh,
    scanRun_fuel_stable w h t, ?_⟩
  intro comp hcomp
  obtain ⟨n, hn⟩ := List.mem_iff_get.mp hcomp
  obtain ⟨harea, _⟩ := (analysis_inv w h t).comp_spec n.1 n.2
  have : comp.area = ((inBFin w h).filter fun c =>
      (analysis w h t).labeled c = n.1 + 1).card := by
    rw [← hn]
    exact harea
  rw [this]
  calc ((inBFin w h).filter fun c =>
      (analysis w h t).labeled c = n.1 + 1).card
      ≤ (inBFin w h).card := Finset.card_filter_le _ _
    _ = w.toNat * h.toNat := card_inBFin w h

/-- C10: the reporter's sort is stable, so components with equal area
keep their label-assignment (row-major discovery) order: filtering the
sorted list to any fixed area gives the same list as filtering the input,
and together with sortedness this determines the reported order
completely. -/
theorem c10_equal_areas_keep_label_order (cs : List Component) (a : Nat) :
    (sortComponents cs).filter (fun c => decide (c.area = a)) =
      cs.filter (fun c => decide (c.area = a)) :=
  sortComponents_filter_area cs a

/-! ## Concrete witnesses -/

/-- C1 at the 1×1 all-transparent grid, pixel (0, 0). -/
theorem c1_witness :
    (0 : Int) < 1 ∧ inBP 1 1 ((0 : Int), (0 : Int)) ∧
    (visitedGrid 1 1 (fun _ => true) ((0 : Int), (0 : Int)) ≠ 0 ↔
      ((fun _ : Cell => true) ((0 : Int), (0 : Int)) = true ∧
        ∃ b, borderP 1 1 b ∧ (fun _ : Cell => true) b = true ∧
          Reach 1 1 (fun _ => true) ((0 : Int), (0 : Int)) b)) :=
  ⟨by decide, by decide,
    c1_border_fill_visits_iff_border_reachable 1 1 (fun _ => true)
      (by decide) (by decide) ((0 : Int), (0 : Int)) (by decide)⟩

/-- C2 at the 1×1 all-transparent grid, pixel (0, 0). -/
theorem c2_witness :
    (0 : Int) < 1 ∧ inBP 1 1 ((0 : Int), (0 : Int)) ∧
    ((analysis 1 1 (fun _ => true)).labeled ((0 : Int), (0 : Int)) ≠ 0 ↔
      interiorMask 1 1 (fun _ => true) ((0 : Int), (0 : Int)) = true) :=
  ⟨by decide, by decide,
    (c2_labels_partition_interior 1 1 (fun _ => true)
      (by decide) (by decide)).1 ((0 : Int), (0 : Int)) (by decide)⟩

/-- C3 at the 1×1 all-transparent grid. -/
theorem c3_witness :
    (0 : Int) < 1 ∧ (analysis 1 1 (fun _ => true)).components = [] :=
  ⟨by decide,
    (c3_transparent_border_is_exterior 1 1 (fun _ => true)
      (by decide) (by decide)).2⟩

/-- C4 at the 3×3 grid whose only transparent pixel is the center: one
interior component of area 1. -/
theorem c4_witness :
    (0 : Int) < 3 ∧
    0 < (analysis 3 3 (fun c : Cell =>
      decide (c = ((1 : Int), (1 : Int))))).components.length ∧
    1 ≤ ((analysis 3 3 (fun c : Cell =>
      decide (c = ((1 : Int), (1 : Int))))).components.get
        ⟨0, by decide⟩).area :=
  ⟨by decide, by decide,
    (c4_component_area_and_bbox 3 3
      (fun c : Cell => decide (c = ((1 : Int), (1 : Int))))
      (by decide) (by decide) 0 (by decide)).2.2.2.2.2.2.1⟩

/-- C7 at the 1×1 all-transparent grid with the single-seed candidate
list. -/
theorem c7_witness :
    (0 : Int) < 1 ∧
    (∀ c : Cell, c ∈ [((0 : Int), (0 : Int))] ↔ borderP 1 1 c) ∧
    (seedRun 1 1 (fun _ => true) [((0 : Int), (0 : Int))] 6).grid
        ((0 : Int), (0 : Int)) =
      visitedGrid 1 1 (fun _ => true) ((0 : Int), (0 : Int)) := by
  have hL : ∀ c : Cell, c ∈ [((0 : Int), (0 : Int))] ↔ borderP 1 1 c := by
    intro c
    rw [List.mem_singleton]
    constructor
    · rintro rfl
      decide
    · intro hb
      obtain ⟨⟨h1, h2, h3, h4⟩, _⟩ := hb
      rw [Prod.ext_iff]
      constructor <;> omega
  exact ⟨by decide, hL,
    c7_visited_independent_of_seeding 1 1 (fun _ => true) (by decide)
      (by decide) [((0 : Int), (0 : Int))] hL 6 (by decide)
      ((0 : Int), (0 : Int))⟩

/-- C8 at the 1×1 grid with an opaque pixel. -/
theorem c8_witness :
    (0 : Int) < 1 ∧
    detect 1 1 (fun _ => 0) 16 = detect 1 1 (fun _ => 0) 16 :=
  ⟨by decide,
    (c8_analysis_deterministic 1 1 16 (fun _ => 0) (fun _ => 0)
      (by decide) (by decide) (fun _ _ => rfl)).1⟩

/-- C9 at the 1×1 all-transparent grid. -/
theorem c9_witness :
    (0 : Int) < 1 ∧
    (borderRun 1 1 (fun _ => true) (borderFuel 1 1)).queue = [] :=
  ⟨by decide,
    (c9_both_fills_terminate 1 1 (fun _ => true)
      (by decide) (by decide)).1⟩

end Cutout
